import Mathlib


/-
  Shallow embedding of the UVMAC core (uvmac.c / uvmaclib.h) for the
  build configuration fixed by uvmaclib.h:
    UVMAC_TAG_LEN = 64, UVMAC_NHBYTES = 128, UVMAC_PREFER_BIG_ENDIAN = 0.
  Machine integers are modelled as Nat with explicit `% 2^64` / `% 2^128`
  where the C code relies on unsigned overflow.  Bitwise AND with the
  all-ones masks m62 / m63 is written as `% 2^62` / `% 2^63`
  (`x &&& (2^k - 1) = x % 2^k`); the two-lane poly mask mpoly is kept as
  a genuine `&&&`.  Fallible code paths (pad-key exhaustion, key-schedule
  exhaustion) are modelled with Option.
-/

set_option maxHeartbeats 2000000
set_option maxRecDepth 10000

/-- The prime 2^64 - 257 used by the l3 hash (constant `p64` in the source). -/
def p64 : Nat := 0xfffffffffffffeff

/-- Mask constant `m62` of the source (2^62 - 1). -/
def m62 : Nat := 0x3fffffffffffffff

/-- Mask constant `m63` of the source (2^63 - 1). -/
def m63 : Nat := 0x7fffffffffffffff

/-- Mask constant `m64` of the source (2^64 - 1). -/
def m64 : Nat := 0xffffffffffffffff

/-- Poly key mask constant `mpoly` of the source: each 32-bit lane keeps 29 bits. -/
def mpoly : Nat := 0x1fffffff1fffffff

/-- The Mersenne prime 2^127 - 1 over which the layer-2 polynomial hash works
(written p127 in the source comments). -/
def p127 : Nat := 2 ^ 127 - 1

/-- The `ADD128(rh,rl,ih,il)` macro (default portable implementation):
128-bit addition on (hi,lo) pairs of 64-bit words, with the carry detected
by the wrapped low word comparing below the addend. -/
def ADD128 (rh rl ih il : Nat) : Nat × Nat :=
  let rl2 := (rl + il) % 2 ^ 64
  let rh2 := if rl2 < il then (rh + 1) % 2 ^ 64 else rh
  ((rh2 + ih) % 2 ^ 64, rl2)

/-- The `MUL64(rh,rl,i1,i2)` macro: full 64x64 -> 128 unsigned multiply,
returned as the (hi,lo) split of the product. -/
def MUL64 (i1 i2 : Nat) : Nat × Nat :=
  ((i1 * i2) / 2 ^ 64, (i1 * i2) % 2 ^ 64)

/-- Value of a (hi,lo) pair of 64-bit words as a 128-bit integer. -/
def val128 (p : Nat × Nat) : Nat := p.1 * 2 ^ 64 + p.2

/-- Byte i of a message buffer (buffers are byte lists; bytes are reduced
mod 256, out-of-range reads give 0, matching the zero-filled test buffers). -/
def byteAt (m : List Nat) (i : Nat) : Nat := m.getD i 0 % 256

/-- The `get64LE` message-word read (UVMAC_PREFER_BIG_ENDIAN = 0 on a
little-endian host): 64-bit word number w, little-endian byte order. -/
def get64LE (m : List Nat) (w : Nat) : Nat :=
  byteAt m (8 * w) + 2 ^ 8 * byteAt m (8 * w + 1) + 2 ^ 16 * byteAt m (8 * w + 2) +
    2 ^ 24 * byteAt m (8 * w + 3) + 2 ^ 32 * byteAt m (8 * w + 4) +
    2 ^ 40 * byteAt m (8 * w + 5) + 2 ^ 48 * byteAt m (8 * w + 6) +
    2 ^ 56 * byteAt m (8 * w + 7)

/-- The `get64BE` key-word read: 64-bit word number w, big-endian byte order. -/
def get64BE (m : List Nat) (w : Nat) : Nat :=
  2 ^ 56 * byteAt m (8 * w) + 2 ^ 48 * byteAt m (8 * w + 1) + 2 ^ 40 * byteAt m (8 * w + 2) +
    2 ^ 32 * byteAt m (8 * w + 3) + 2 ^ 24 * byteAt m (8 * w + 4) +
    2 ^ 16 * byteAt m (8 * w + 5) + 2 ^ 8 * byteAt m (8 * w + 6) +
    byteAt m (8 * w + 7)

/-- The `nh_16(mp,kp,nw,rh,rl)` macro of the 64-bit build: for i = 0,2,...
multiply the mod-2^64 sums of message word and key word pairs and accumulate
the 128-bit products with ADD128.  `mp` is the message indexed in 64-bit
words, `kp` the NH key window.  (For nw a multiple of 8 the unrolled
`nh_vhash_nhbytes` macro performs the identical operation sequence.) -/
def nh_16 (mp kp : Nat → Nat) (nw : Nat) : Nat × Nat :=
  (List.range (nw / 2)).foldl
    (fun r j =>
      let i := 2 * j
      let t := MUL64 ((mp i + kp i) % 2 ^ 64) ((mp (i + 1) + kp (i + 1)) % 2 ^ 64)
      ADD128 r.1 r.2 t.1 t.2)
    (0, 0)

/-- The `poly_step(ah,al,kh,kl,mh,ml)` macro of the 64-bit build
(UVMAC_ARCH_64 path): one Horner step of the layer-2 polynomial hash over
2^127 - 1, performed on (hi,lo) pairs with PMUL64/ADD128. -/
def poly_step (ah al kh kl mh ml : Nat) : Nat × Nat :=
  let t3 := MUL64 al kh
  let t2 := MUL64 ah kl
  let t1 := MUL64 ah ((2 * kh) % 2 ^ 64)
  let x0 := MUL64 al kl
  let x1 := ADD128 x0.1 x0.2 t1.1 t1.2
  let y := ADD128 t2.1 t2.2 t3.1 t3.2
  let v := ADD128 y.1 x1.1 0 y.2
  let t2h := (2 * v.1 + v.2 / 2 ^ 63) % 2 ^ 64
  let ah4 := v.2 % 2 ^ 63
  let s1 := ADD128 ah4 x1.2 mh ml
  ADD128 s1.1 s1.2 0 t2h

/-- The static function `l3hash(p1,p2,k1,k2,len)`: reduces the 128-bit poly
state plus the length encoding modulo 2^127 - 1, maps into residues, adds the
l3 key pair and multiplies modulo 2^64 - 257, producing the 64-bit digest. -/
def l3hash (p1 p2 k1 k2 len : Nat) : Nat :=
  let t0 := p1 / 2 ^ 63
  let p1a := p1 % 2 ^ 63
  let q1 := ADD128 p1a p2 len t0
  let t1 := (if q1.1 > m63 then 1 else 0) + (if q1.1 = m63 ∧ q1.2 = m64 then 1 else 0)
  let q2 := ADD128 q1.1 q1.2 0 t1
  let p1b := q2.1 % 2 ^ 63
  let p2b := q2.2
  let ta := (p1b + p2b / 2 ^ 32) % 2 ^ 64
  let tb := (ta + ta / 2 ^ 32) % 2 ^ 64
  let tc := (tb + (if tb % 2 ^ 32 > 0xfffffffe then 1 else 0)) % 2 ^ 64
  let p1c := (p1b + tc / 2 ^ 32) % 2 ^ 64
  let p2c := (p2b + p1c * 2 ^ 32 % 2 ^ 64) % 2 ^ 64
  let p1d := (p1c + k1) % 2 ^ 64
  let p1e := (p1d + (if p1d < k1 then 257 else 0)) % 2 ^ 64
  let p2d := (p2c + k2) % 2 ^ 64
  let p2e := (p2d + (if p2d < k2 then 257 else 0)) % 2 ^ 64
  let r := MUL64 p1e p2e
  let td := r.1 / 2 ^ 56
  let u1 := ADD128 td r.2 0 r.1
  let rh2 := r.1 * 2 ^ 8 % 2 ^ 64
  let u2 := ADD128 u1.1 u1.2 0 rh2
  let te := (u2.1 + u2.1 * 2 ^ 8 % 2 ^ 64) % 2 ^ 64
  let rl2 := (u2.2 + te) % 2 ^ 64
  let rl3 := (rl2 + (if rl2 < te then 257 else 0)) % 2 ^ 64
  (rl3 + (if rl3 > p64 - 1 then 257 else 0)) % 2 ^ 64

/-- The context record `uvmax_ctx_t` of uvmaclib.h for the 64-bit tag build:
16 NH key words, one poly key pair, one l3 key pair, one running poly
accumulator pair, and the first-block flag. -/
structure uvmax_ctx_t where
  nhkey : List Nat
  polykey0 : Nat
  polykey1 : Nat
  l3key0 : Nat
  l3key1 : Nat
  polytmp0 : Nat
  polytmp1 : Nat
  first_block_processed : Bool
deriving DecidableEq, Repr

/-- The `while (i--)` loop shared by vhash_update and vhash: absorb n full
128-byte blocks starting at 64-bit word offset woff, each by an NH
computation masked to 62 bits followed by a poly_step with the poly key. -/
def pstepBlocks (mp kp : Nat → Nat) (pkh pkl : Nat) : Nat → Nat → Nat × Nat → Nat × Nat
  | 0, _, c => c
  | n + 1, woff, c =>
    let r := nh_16 (fun j => mp (woff + j)) kp 16
    pstepBlocks mp kp pkh pkl n (woff + 16) (poly_step c.1 c.2 pkh pkl (r.1 % 2 ^ 62) r.2)

/-- The function `vhash_abort(ctx)`: reset the poly accumulator to the poly
key and clear the first-block flag. -/
def vhash_abort (ctx : uvmax_ctx_t) : uvmax_ctx_t :=
  { ctx with
    polytmp0 := ctx.polykey0
    polytmp1 := ctx.polykey1
    first_block_processed := false }

/-- The function `vhash_update(m,mbytes,ctx)` (mbytes a positive multiple of
UVMAC_NHBYTES = 128): absorb mbytes/128 full blocks; if no block was
processed yet the first block is combined by ADD128 onto the accumulator and
the flag is set, all further blocks go through poly_step. -/
def vhash_update (m : List Nat) (mbytes : Nat) (ctx : uvmax_ctx_t) : uvmax_ctx_t :=
  let mp : Nat → Nat := fun j => get64LE m j
  let kp : Nat → Nat := fun j => ctx.nhkey.getD j 0
  let i := mbytes / 128
  if ctx.first_block_processed then
    let c := pstepBlocks mp kp ctx.polykey0 ctx.polykey1 i 0 (ctx.polytmp0, ctx.polytmp1)
    { ctx with polytmp0 := c.1, polytmp1 := c.2 }
  else
    let r := nh_16 mp kp 16
    let c1 := ADD128 ctx.polytmp0 ctx.polytmp1 (r.1 % 2 ^ 62) r.2
    let c := pstepBlocks mp kp ctx.polykey0 ctx.polykey1 (i - 1) 16 c1
    { ctx with polytmp0 := c.1, polytmp1 := c.2, first_block_processed := true }

/-- The accumulator computation of `vhash(m,mbytes,...,ctx)` up to the
`do_l3` label: dispatch on the first-block flag, the number of full blocks
i = mbytes/128 and the remainder; full blocks go through nh/poly_step, the
tail through nh_16 over 2*ceil(remaining/16) words; the first absorbed block
(or tail, for short messages) is combined by ADD128, and the empty message
uses the poly key itself. -/
def vhash_core (m : List Nat) (mbytes : Nat) (ctx : uvmax_ctx_t) : Nat × Nat :=
  let mp : Nat → Nat := fun j => get64LE m j
  let kp : Nat → Nat := fun j => ctx.nhkey.getD j 0
  let pkh := ctx.polykey0
  let pkl := ctx.polykey1
  let i := mbytes / 128
  let remaining := mbytes % 128
  if ctx.first_block_processed then
    let c := pstepBlocks mp kp pkh pkl i 0 (ctx.polytmp0, ctx.polytmp1)
    if remaining ≠ 0 then
      let r := nh_16 (fun j => mp (16 * i + j)) kp (2 * ((remaining + 15) / 16))
      poly_step c.1 c.2 pkh pkl (r.1 % 2 ^ 62) r.2
    else c
  else if i ≠ 0 then
    let r := nh_16 mp kp 16
    let c1 := ADD128 (r.1 % 2 ^ 62) r.2 pkh pkl
    let c := pstepBlocks mp kp pkh pkl (i - 1) 16 c1
    if remaining ≠ 0 then
      let r2 := nh_16 (fun j => mp (16 * i + j)) kp (2 * ((remaining + 15) / 16))
      poly_step c.1 c.2 pkh pkl (r2.1 % 2 ^ 62) r2.2
    else c
  else if remaining ≠ 0 then
    let r := nh_16 mp kp (2 * ((remaining + 15) / 16))
    ADD128 (r.1 % 2 ^ 62) r.2 pkh pkl
  else
    (pkh, pkl)

/-- The function `vhash(m,mbytes,tagl,ctx)` of the 64-bit tag build: compute
the accumulator, reset the context via vhash_abort, and return
`l3hash(ch, cl, l3key[0], l3key[1], remaining * 8)` together with the reset
context (the context is passed by pointer in C). -/
def vhash (m : List Nat) (mbytes : Nat) (ctx : uvmax_ctx_t) : Nat × uvmax_ctx_t :=
  let c := vhash_core m mbytes ctx
  (l3hash c.1 c.2 ctx.l3key0 ctx.l3key1 (8 * (mbytes % 128)), vhash_abort ctx)

/-- The function `get64bitsOfKey(consumable_key, key_length, key_position)`:
when the cursor has not passed key_length (both in 64-bit words), return the
word at the cursor - the C function returns a pointer whose callers read it
with get64BE - and the cursor advanced by one.  The exhausted case (the C
code prints an error and calls assert(0)) is modelled as none. -/
def get64bitsOfKey (consumable_key : List Nat) (key_length key_position : Nat) :
    Option (Nat × Nat) :=
  if key_position + 1 > key_length then none
  else some (get64BE consumable_key key_position, key_position + 1)

/-- The function `uvmac(m,mbytes,tagl,ctx,consumable_key,len,pos)` of the
64-bit tag build: draw one pad-key word (big-endian), hash the message, and
return the sum mod 2^64 together with the reset context and the advanced
cursor; none when the pad key is exhausted. -/
def uvmac (m : List Nat) (mbytes : Nat) (ctx : uvmax_ctx_t) (consumable_key : List Nat)
    (consumable_key_length consumable_key_position : Nat) :
    Option (Nat × uvmax_ctx_t × Nat) :=
  match get64bitsOfKey consumable_key consumable_key_length consumable_key_position with
  | none => none
  | some pp =>
    let h := vhash m mbytes ctx
    some ((pp.1 + h.1) % 2 ^ 64, h.2, pp.2)

/-- Sequential draw of n key words in uvmac_set_key (the nh and poly fill
loops): none when the user key is exhausted. -/
def fillWords (user_key : List Nat) (key_length : Nat) : Nat → Nat → Option (List Nat × Nat)
  | 0, cursor => some ([], cursor)
  | n + 1, cursor =>
    match get64bitsOfKey user_key key_length cursor with
    | none => none
    | some wc =>
      match fillWords user_key key_length n wc.2 with
      | none => none
      | some wsc => some (wc.1 :: wsc.1, wsc.2)

/-- The `do { ... } while (l3key[i] >= p64)` rejection loop of
uvmac_set_key: keep drawing words until one is below p64.  Each draw
consumes a key word, so fuel exceeding the key length makes the fuel-out
case coincide with key exhaustion (modelled as none either way). -/
def drawL3Word (user_key : List Nat) (key_length : Nat) : Nat → Nat → Option (Nat × Nat)
  | 0, _ => none
  | fuel + 1, cursor =>
    match get64bitsOfKey user_key key_length cursor with
    | none => none
    | some wc =>
      if wc.1 ≥ p64 then drawL3Word user_key key_length fuel wc.2
      else some (wc.1, wc.2)

/-- The function `uvmac_set_key(user_key, key_length, ctx)` of the 64-bit tag
build: fill the 16 nh key words, the poly key pair (masked by mpoly, with
polytmp initialised to the same values), the l3 key pair by rejection
sampling below p64, and clear the first-block flag.  Key exhaustion
(an out-of-key assert in C) is modelled as none. -/
def uvmac_set_key (user_key : List Nat) (key_length : Nat) : Option uvmax_ctx_t :=
  match fillWords user_key key_length 16 0 with
  | none => none
  | some nhc =>
    match fillWords user_key key_length 2 nhc.2 with
    | none => none
    | some pkc =>
      let pk0 := pkc.1.getD 0 0 &&& mpoly
      let pk1 := pkc.1.getD 1 0 &&& mpoly
      match drawL3Word user_key key_length (key_length + 1) pkc.2 with
      | none => none
      | some l3a =>
        match drawL3Word user_key key_length (key_length + 1) l3a.2 with
        | none => none
        | some l3b =>
          some
            { nhkey := nhc.1
              polykey0 := pk0
              polykey1 := pk1
              l3key0 := l3a.1
              l3key1 := l3b.1
              polytmp0 := pk0
              polytmp1 := pk1
              first_block_processed := false }

/-- Masked value of the NH output of the full 128-byte block at 64-bit word
offset woff, as the 128-bit quantity fed to the poly layer (hi word masked
to 62 bits). -/
def nhMaskedAt (m : List Nat) (kp : Nat → Nat) (woff : Nat) : Nat :=
  ((nh_16 (fun j => get64LE m (woff + j)) kp 16).1 % 2 ^ 62) * 2 ^ 64 +
    (nh_16 (fun j => get64LE m (woff + j)) kp 16).2

/- ------------------------------------------------------------------ -/
/- Arithmetic helper lemmas                                           -/
/- ------------------------------------------------------------------ -/

theorem ADD128_snd_lt (rh rl ih il : Nat) : (ADD128 rh rl ih il).2 < 2 ^ 64 := by
  simp only [ADD128]
  exact Nat.mod_lt _ (by norm_num)

theorem ADD128_fst_lt (rh rl ih il : Nat) : (ADD128 rh rl ih il).1 < 2 ^ 64 := by
  simp only [ADD128]
  exact Nat.mod_lt _ (by norm_num)

theorem ADD128_eq (rh rl ih il : Nat) (hrl : rl < 2 ^ 64) (hil : il < 2 ^ 64) :
    ADD128 rh rl ih il =
      ((rh + ih + (rl + il) / 2 ^ 64) % 2 ^ 64, (rl + il) % 2 ^ 64) := by
  simp only [ADD128]
  split_ifs with h
  · refine Prod.ext ?_ rfl
    simp only []
    rw [Nat.mod_add_mod]
    congr 1
    omega
  · refine Prod.ext ?_ rfl
    simp only []
    congr 1
    omega

theorem MUL64_eq (a b : Nat) : MUL64 a b = (a * b / 2 ^ 64, a * b % 2 ^ 64) := rfl

theorem MUL64_val (a b : Nat) :
    (MUL64 a b).1 * 2 ^ 64 + (MUL64 a b).2 = a * b := by
  simp only [MUL64]
  omega

theorem MUL64_snd_lt (a b : Nat) : (MUL64 a b).2 < 2 ^ 64 := by
  simp only [MUL64]
  exact Nat.mod_lt _ (by norm_num)

theorem MUL64_fst_lt (a b : Nat) (ha : a < 2 ^ 64) (hb : b < 2 ^ 64) :
    (MUL64 a b).1 < 2 ^ 64 := by
  simp only [MUL64]
  have h : a * b ≤ (2 ^ 64 - 1) * (2 ^ 64 - 1) := Nat.mul_le_mul (by omega) (by omega)
  omega

theorem byteAt_lt (m : List Nat) (i : Nat) : byteAt m i < 256 := by
  simp only [byteAt]
  exact Nat.mod_lt _ (by norm_num)

theorem get64LE_lt (m : List Nat) (w : Nat) : get64LE m w < 2 ^ 64 := by
  simp only [get64LE]
  have h0 := byteAt_lt m (8 * w)
  have h1 := byteAt_lt m (8 * w + 1)
  have h2 := byteAt_lt m (8 * w + 2)
  have h3 := byteAt_lt m (8 * w + 3)
  have h4 := byteAt_lt m (8 * w + 4)
  have h5 := byteAt_lt m (8 * w + 5)
  have h6 := byteAt_lt m (8 * w + 6)
  have h7 := byteAt_lt m (8 * w + 7)
  omega

theorem get64BE_lt (m : List Nat) (w : Nat) : get64BE m w < 2 ^ 64 := by
  simp only [get64BE]
  have h0 := byteAt_lt m (8 * w)
  have h1 := byteAt_lt m (8 * w + 1)
  have h2 := byteAt_lt m (8 * w + 2)
  have h3 := byteAt_lt m (8 * w + 3)
  have h4 := byteAt_lt m (8 * w + 4)
  have h5 := byteAt_lt m (8 * w + 5)
  have h6 := byteAt_lt m (8 * w + 6)
  have h7 := byteAt_lt m (8 * w + 7)
  omega

theorem p127_eq : p127 = 2 ^ 127 - 1 := rfl

theorem zmod_pow127 : (2 : ZMod p127) ^ 127 = 1 := by
  have hn : (2 ^ 127 : ℕ) = p127 + 1 := by norm_num [p127]
  have h : ((2 ^ 127 : ℕ) : ZMod p127) = ((p127 + 1 : ℕ) : ZMod p127) := by rw [hn]
  push_cast at h
  rw [ZMod.natCast_self] at h
  simpa using h

theorem mpoly_lt : mpoly < 2 ^ 61 := by norm_num [mpoly]

/-- Main arithmetic fact about poly_step: for a masked poly key and a 62-bit
NH hi word, the output pair represents a*k + m modulo 2^127 - 1 (for ANY
accumulator pair of 64-bit words), and its hi word stays at most
2^63 + 2^62. -/
theorem poly_step_congr (ah al kh kl mh ml : Nat)
    (hah : ah < 2 ^ 64) (hal : al < 2 ^ 64)
    (hkh : kh ≤ mpoly) (hkl : kl ≤ mpoly)
    (hmh : mh < 2 ^ 62) (hml : ml < 2 ^ 64) :
    val128 (poly_step ah al kh kl mh ml) ≡
        (ah * 2 ^ 64 + al) * (kh * 2 ^ 64 + kl) + (mh * 2 ^ 64 + ml) [MOD p127] ∧
      (poly_step ah al kh kl mh ml).1 ≤ 2 ^ 63 + 2 ^ 62 := by
  have hkh61 : kh < 2 ^ 61 := lt_of_le_of_lt hkh mpoly_lt
  have hkl61 : kl < 2 ^ 61 := lt_of_le_of_lt hkl mpoly_lt
  have h2kh : (2 * kh) % 2 ^ 64 = 2 * kh := Nat.mod_eq_of_lt (by omega)
  -- bounds on the four wide products
  have hbP1 : al * kl < 2 ^ 125 := by
    calc al * kl ≤ (2 ^ 64 - 1) * (2 ^ 61 - 1) := Nat.mul_le_mul (by omega) (by omega)
    _ < 2 ^ 125 := by norm_num
  have hbP2 : ah * (2 * kh) < 2 ^ 126 := by
    calc ah * (2 * kh) ≤ (2 ^ 64 - 1) * (2 ^ 62 - 1) := Nat.mul_le_mul (by omega) (by omega)
    _ < 2 ^ 126 := by norm_num
  have hbP3 : al * kh < 2 ^ 125 := by
    calc al * kh ≤ (2 ^ 64 - 1) * (2 ^ 61 - 1) := Nat.mul_le_mul (by omega) (by omega)
    _ < 2 ^ 125 := by norm_num
  have hbP4 : ah * kl < 2 ^ 125 := by
    calc ah * kl ≤ (2 ^ 64 - 1) * (2 ^ 61 - 1) := Nat.mul_le_mul (by omega) (by omega)
    _ < 2 ^ 125 := by norm_num
  -- opaque names for all intermediates of the macro
  obtain ⟨t3, ht3⟩ : ∃ t, MUL64 al kh = t := ⟨_, rfl⟩
  obtain ⟨t2, ht2⟩ : ∃ t, MUL64 ah kl = t := ⟨_, rfl⟩
  obtain ⟨t1, ht1⟩ : ∃ t, MUL64 ah ((2 * kh) % 2 ^ 64) = t := ⟨_, rfl⟩
  obtain ⟨x0, hx0⟩ : ∃ t, MUL64 al kl = t := ⟨_, rfl⟩
  obtain ⟨x1, hx1⟩ : ∃ t, ADD128 x0.1 x0.2 t1.1 t1.2 = t := ⟨_, rfl⟩
  obtain ⟨y, hy⟩ : ∃ t, ADD128 t2.1 t2.2 t3.1 t3.2 = t := ⟨_, rfl⟩
  obtain ⟨v, hv⟩ : ∃ t, ADD128 y.1 x1.1 0 y.2 = t := ⟨_, rfl⟩
  obtain ⟨t2h, ht2h⟩ : ∃ t, (2 * v.1 + v.2 / 2 ^ 63) % 2 ^ 64 = t := ⟨_, rfl⟩
  obtain ⟨ah4, hah4⟩ : ∃ t, v.2 % 2 ^ 63 = t := ⟨_, rfl⟩
  obtain ⟨s1, hs1⟩ : ∃ t, ADD128 ah4 x1.2 mh ml = t := ⟨_, rfl⟩
  have hps : poly_step ah al kh kl mh ml = ADD128 s1.1 s1.2 0 t2h := by
    simp only [poly_step]
    rw [ht3, ht2, ht1, hx0, hx1, hy, hv, ht2h, hah4, hs1]
  -- values and bounds of the products
  have ht3v : t3.1 * 2 ^ 64 + t3.2 = al * kh := by rw [← ht3]; exact MUL64_val al kh
  have ht2v : t2.1 * 2 ^ 64 + t2.2 = ah * kl := by rw [← ht2]; exact MUL64_val ah kl
  have ht1v : t1.1 * 2 ^ 64 + t1.2 = ah * (2 * kh) := by
    rw [← ht1, h2kh]; exact MUL64_val ah (2 * kh)
  have hx0v : x0.1 * 2 ^ 64 + x0.2 = al * kl := by rw [← hx0]; exact MUL64_val al kl
  have ht3l : t3.2 < 2 ^ 64 := by rw [← ht3]; exact MUL64_snd_lt al kh
  have ht2l : t2.2 < 2 ^ 64 := by rw [← ht2]; exact MUL64_snd_lt ah kl
  have ht1l : t1.2 < 2 ^ 64 := by rw [← ht1]; exact MUL64_snd_lt ah ((2 * kh) % 2 ^ 64)
  have hx0l : x0.2 < 2 ^ 64 := by rw [← hx0]; exact MUL64_snd_lt al kl
  -- now work with atoms only: replace products by atoms for the carry reasoning
  obtain ⟨P1, hP1⟩ : ∃ P, al * kl = P := ⟨_, rfl⟩
  obtain ⟨P2, hP2⟩ : ∃ P, ah * (2 * kh) = P := ⟨_, rfl⟩
  obtain ⟨P3, hP3⟩ : ∃ P, al * kh = P := ⟨_, rfl⟩
  obtain ⟨P4, hP4⟩ : ∃ P, ah * kl = P := ⟨_, rfl⟩
  rw [hP1] at hbP1 hx0v; rw [hP2] at hbP2 ht1v; rw [hP3] at hbP3 ht3v
  rw [hP4] at hbP4 ht2v
  -- the X = al*kl + 2*ah*kh accumulation
  have hx1e : x1 = ((x0.1 + t1.1 + (x0.2 + t1.2) / 2 ^ 64) % 2 ^ 64, (x0.2 + t1.2) % 2 ^ 64) :=
    by rw [← hx1]; exact ADD128_eq x0.1 x0.2 t1.1 t1.2 hx0l ht1l
  have hx1v : x1.1 * 2 ^ 64 + x1.2 = P1 + P2 := by rw [hx1e]; simp only []; omega
  have hx1h : x1.1 < 2 ^ 64 := by rw [← hx1]; exact ADD128_fst_lt x0.1 x0.2 t1.1 t1.2
  have hx1l : x1.2 < 2 ^ 64 := by rw [← hx1]; exact ADD128_snd_lt x0.1 x0.2 t1.1 t1.2
  -- the Y = ah*kl + al*kh accumulation
  have hye : y = ((t2.1 + t3.1 + (t2.2 + t3.2) / 2 ^ 64) % 2 ^ 64, (t2.2 + t3.2) % 2 ^ 64) :=
    by rw [← hy]; exact ADD128_eq t2.1 t2.2 t3.1 t3.2 ht2l ht3l
  have hyv : y.1 * 2 ^ 64 + y.2 = P4 + P3 := by rw [hye]; simp only []; omega
  have hyl : y.2 < 2 ^ 64 := by rw [← hy]; exact ADD128_snd_lt t2.1 t2.2 t3.1 t3.2
  -- folding the middle words
  have hve : v = ((y.1 + 0 + (x1.1 + y.2) / 2 ^ 64) % 2 ^ 64, (x1.1 + y.2) % 2 ^ 64) :=
    by rw [← hv]; exact ADD128_eq y.1 x1.1 0 y.2 hx1h hyl
  have hvv : v.1 * 2 ^ 64 + v.2 = y.1 * 2 ^ 64 + x1.1 + y.2 := by
    rw [hve]; simp only []; omega
  have hvl : v.2 < 2 ^ 64 := by rw [← hv]; exact ADD128_snd_lt y.1 x1.1 0 y.2
  obtain ⟨b, hb⟩ : ∃ t, v.2 / 2 ^ 63 = t := ⟨_, rfl⟩
  have hsplit : v.2 = b * 2 ^ 63 + ah4 := by rw [← hb, ← hah4]; omega
  have hah4lt : ah4 < 2 ^ 63 := by rw [← hah4]; exact Nat.mod_lt _ (by norm_num)
  have ht2hv : t2h = 2 * v.1 + b := by
    rw [← ht2h, hb]
    exact Nat.mod_eq_of_lt (by omega)
  have ht2hlt : t2h < 2 ^ 64 := by rw [← ht2h]; exact Nat.mod_lt _ (by norm_num)
  -- the final two additions
  have hs1e : s1 = ((ah4 + mh + (x1.2 + ml) / 2 ^ 64) % 2 ^ 64, (x1.2 + ml) % 2 ^ 64) :=
    by rw [← hs1]; exact ADD128_eq ah4 x1.2 mh ml hx1l hml
  have hs1v : s1.1 * 2 ^ 64 + s1.2 = ah4 * 2 ^ 64 + x1.2 + mh * 2 ^ 64 + ml := by
    rw [hs1e]; simp only []; omega
  have hs1l : s1.2 < 2 ^ 64 := by rw [← hs1]; exact ADD128_snd_lt ah4 x1.2 mh ml
  have hfe : poly_step ah al kh kl mh ml =
      ((s1.1 + 0 + (s1.2 + t2h) / 2 ^ 64) % 2 ^ 64, (s1.2 + t2h) % 2 ^ 64) := by
    rw [hps]; exact ADD128_eq s1.1 s1.2 0 t2h hs1l ht2hlt
  have hRv : (poly_step ah al kh kl mh ml).1 * 2 ^ 64 + (poly_step ah al kh kl mh ml).2 =
      ah4 * 2 ^ 64 + x1.2 + (mh * 2 ^ 64 + ml) + t2h := by
    rw [hfe]; simp only []
    clear hps hfe hx1e hye hve hs1e ht3 ht2 ht1 hx0 hx1 hy hv ht2h hah4 hs1 hb
    omega
  constructor
  · -- congruence modulo p127
    simp only [val128]
    rw [← hP1, ← hP2] at hx1v; rw [← hP3, ← hP4] at hyv
    have hXc := congrArg (fun n : ℕ => (n : ZMod p127)) hx1v
    have hYc := congrArg (fun n : ℕ => (n : ZMod p127)) hyv
    have hVc := congrArg (fun n : ℕ => (n : ZMod p127)) hvv
    have hSc := congrArg (fun n : ℕ => (n : ZMod p127)) hsplit
    have hTc := congrArg (fun n : ℕ => (n : ZMod p127)) ht2hv
    have hRc := congrArg (fun n : ℕ => (n : ZMod p127)) hRv
    push_cast at hXc hYc hVc hSc hTc hRc
    have h127 := zmod_pow127
    rw [← ZMod.natCast_eq_natCast_iff]
    push_cast
    linear_combination hRc + hTc + hXc + (2 : ZMod p127) ^ 64 * hYc +
      (2 : ZMod p127) ^ 64 * hVc - (2 : ZMod p127) ^ 64 * hSc -
      (2 * (ah : ZMod p127) * (kh : ZMod p127) + 2 * ((v.1 : ZMod p127)) +
        ((b : ZMod p127))) * h127
  · -- hi word stays at most 2^63 + 2^62
    have hp2 : (poly_step ah al kh kl mh ml).2 < 2 ^ 64 := by
      rw [hps]; exact ADD128_snd_lt s1.1 s1.2 0 t2h
    omega

theorem ADD128_val_mod (rh rl ih il : Nat) (_hrh : rh < 2 ^ 64) (hrl : rl < 2 ^ 64)
    (_hih : ih < 2 ^ 64) (hil : il < 2 ^ 64) :
    val128 (ADD128 rh rl ih il) = (rh * 2 ^ 64 + rl + (ih * 2 ^ 64 + il)) % 2 ^ 128 := by
  rw [ADD128_eq rh rl ih il hrl hil]
  simp only [val128]
  omega

theorem poly_step_fst_lt (ah al kh kl mh ml : Nat) : (poly_step ah al kh kl mh ml).1 < 2 ^ 64 := by
  simp only [poly_step]
  exact ADD128_fst_lt _ _ _ _

theorem poly_step_snd_lt (ah al kh kl mh ml : Nat) : (poly_step ah al kh kl mh ml).2 < 2 ^ 64 := by
  simp only [poly_step]
  exact ADD128_snd_lt _ _ _ _

theorem nh_16_bounds (mp kp : Nat → Nat) (nw : Nat) :
    (nh_16 mp kp nw).1 < 2 ^ 64 ∧ (nh_16 mp kp nw).2 < 2 ^ 64 := by
  simp only [nh_16]
  induction (nw / 2) with
  | zero => simp [List.range_zero]
  | succ q ih =>
    rw [List.range_succ, List.foldl_append]
    exact ⟨ADD128_fst_lt _ _ _ _, ADD128_snd_lt _ _ _ _⟩

/-- The NH loop computes the pairwise-product sum modulo 2^128. -/
theorem nh_16_val (mp kp : Nat → Nat) (q : Nat) :
    val128 (nh_16 mp kp (2 * q)) =
      (∑ j ∈ Finset.range q,
        ((mp (2 * j) + kp (2 * j)) % 2 ^ 64) * ((mp (2 * j + 1) + kp (2 * j + 1)) % 2 ^ 64)) %
        2 ^ 128 := by
  simp only [nh_16, Nat.mul_div_cancel_left q (by norm_num : 0 < 2)]
  induction q with
  | zero => simp [List.range_zero, val128]
  | succ n ih =>
    rw [List.range_succ, List.foldl_append, Finset.sum_range_succ]
    simp only [List.foldl_cons, List.foldl_nil]
    have hb := nh_16_bounds mp kp (2 * n)
    simp only [nh_16, Nat.mul_div_cancel_left n (by norm_num : 0 < 2)] at hb
    rw [ADD128_val_mod _ _ _ _ hb.1 hb.2
      (MUL64_fst_lt _ _ (Nat.mod_lt _ (by norm_num)) (Nat.mod_lt _ (by norm_num)))
      (MUL64_snd_lt _ _)]
    rw [MUL64_val]
    have hval : (List.range n).foldl
        (fun r j =>
          let i := 2 * j
          let t := MUL64 ((mp i + kp i) % 2 ^ 64) ((mp (i + 1) + kp (i + 1)) % 2 ^ 64)
          ADD128 r.1 r.2 t.1 t.2) (0, 0) =
        ((List.range n).foldl _ (0, 0)) := rfl
    simp only [val128] at ih
    omega

/-- The NH loop reads only the first nw message words. -/
theorem nh_16_ext (mp mp' kp : Nat → Nat) (nw : Nat)
    (h : ∀ j, j < nw → mp j = mp' j) : nh_16 mp kp nw = nh_16 mp' kp nw := by
  simp only [nh_16]
  have hq : 2 * (nw / 2) ≤ nw := Nat.mul_div_le nw 2 |>.trans_eq rfl
  revert hq
  generalize nw / 2 = q
  intro hq
  induction q with
  | zero => rfl
  | succ n ih =>
    simp only [List.range_succ, List.foldl_append, List.foldl_cons, List.foldl_nil]
    rw [ih (by omega), h (2 * n) (by omega), h (2 * n + 1) (by omega)]

theorem pstepBlocks_bounds (mp kp : Nat → Nat) (pkh pkl : Nat) (n : Nat) :
    ∀ (w : Nat) (c : Nat × Nat), c.1 < 2 ^ 64 → c.2 < 2 ^ 64 →
      (pstepBlocks mp kp pkh pkl n w c).1 < 2 ^ 64 ∧
        (pstepBlocks mp kp pkh pkl n w c).2 < 2 ^ 64 := by
  induction n with
  | zero => intro w c h1 h2; simp only [pstepBlocks]; exact ⟨h1, h2⟩
  | succ k ih =>
    intro w c h1 h2
    simp only [pstepBlocks]
    exact ih _ _ (poly_step_fst_lt _ _ _ _ _ _) (poly_step_snd_lt _ _ _ _ _ _)

theorem pstepBlocks_comp (mp kp : Nat → Nat) (pkh pkl : Nat) (n1 n2 : Nat) :
    ∀ (w : Nat) (c : Nat × Nat),
      pstepBlocks mp kp pkh pkl (n1 + n2) w c =
        pstepBlocks mp kp pkh pkl n2 (w + 16 * n1) (pstepBlocks mp kp pkh pkl n1 w c) := by
  induction n1 with
  | zero => intro w c; simp [pstepBlocks]
  | succ k ih =>
    intro w c
    rw [show k + 1 + n2 = (k + n2) + 1 from by omega]
    simp only [pstepBlocks]
    rw [ih]
    rw [show w + 16 + 16 * k = w + 16 * (k + 1) from by ring]

theorem pstepBlocks_ext (mp mp' kp : Nat → Nat) (pkh pkl : Nat) (n : Nat) :
    ∀ (w : Nat) (c : Nat × Nat), (∀ j, w ≤ j → j < w + 16 * n → mp j = mp' j) →
      pstepBlocks mp kp pkh pkl n w c = pstepBlocks mp' kp pkh pkl n w c := by
  induction n with
  | zero => intro w c _; simp only [pstepBlocks]
  | succ k ih =>
    intro w c h
    simp only [pstepBlocks]
    rw [nh_16_ext (fun j => mp (w + j)) (fun j => mp' (w + j)) kp 16
      (fun j hj => h (w + j) (by omega) (by omega))]
    exact ih _ _ (fun j hj1 hj2 => h j (by omega) (by omega))

theorem pstepBlocks_shift (mp kp : Nat → Nat) (pkh pkl : Nat) (n s : Nat) :
    ∀ (w : Nat) (c : Nat × Nat),
      pstepBlocks mp kp pkh pkl n (s + w) c =
        pstepBlocks (fun j => mp (s + j)) kp pkh pkl n w c := by
  induction n with
  | zero => intro w c; simp only [pstepBlocks]
  | succ k ih =>
    intro w c
    simp only [pstepBlocks]
    rw [nh_16_ext (fun j => mp (s + w + j)) (fun j => mp (s + (w + j))) kp 16
      (fun j _ => congrArg mp (Nat.add_assoc s w j))]
    rw [show s + w + 16 = s + (w + 16) from by omega]
    exact ih (w + 16) _

/-- Masked NH value of the full block at word offset w of an abstract
word-indexed message. -/
def nhMaskedW (mp kp : Nat → Nat) (w : Nat) : Nat :=
  ((nh_16 (fun j => mp (w + j)) kp 16).1 % 2 ^ 62) * 2 ^ 64 +
    (nh_16 (fun j => mp (w + j)) kp 16).2

theorem nhMaskedW_congr (mp kp : Nat → Nat) (w w' : Nat) (h : w = w') :
    nhMaskedW mp kp w = nhMaskedW mp kp w' := by rw [h]

/-- Absorbing n blocks by poly steps evaluates the Horner polynomial on the
starting accumulator modulo 2^127 - 1. -/
theorem pstepBlocks_horner (mp kp : Nat → Nat) (pkh pkl : Nat)
    (hkh : pkh ≤ mpoly) (hkl : pkl ≤ mpoly) (n : Nat) :
    ∀ (w : Nat) (c : Nat × Nat), c.1 < 2 ^ 64 → c.2 < 2 ^ 64 →
      val128 (pstepBlocks mp kp pkh pkl n w c) ≡
        val128 c * (pkh * 2 ^ 64 + pkl) ^ n +
          ∑ i ∈ Finset.range n, nhMaskedW mp kp (w + 16 * i) * (pkh * 2 ^ 64 + pkl) ^ (n - 1 - i)
        [MOD p127] := by
  induction n with
  | zero =>
    intro w c _ _
    simp only [pstepBlocks, Finset.range_zero, Finset.sum_empty, pow_zero, mul_one, Nat.add_zero]
    exact Nat.ModEq.refl _
  | succ k ih =>
    intro w c h1 h2
    simp only [pstepBlocks]
    have hnb := nh_16_bounds (fun j => mp (w + j)) kp 16
    have hstep := (poly_step_congr c.1 c.2 pkh pkl
      ((nh_16 (fun j => mp (w + j)) kp 16).1 % 2 ^ 62)
      (nh_16 (fun j => mp (w + j)) kp 16).2
      h1 h2 hkh hkl (Nat.mod_lt _ (by norm_num)) hnb.2).1
    have hih := ih (w + 16) (poly_step c.1 c.2 pkh pkl
      ((nh_16 (fun j => mp (w + j)) kp 16).1 % 2 ^ 62)
      (nh_16 (fun j => mp (w + j)) kp 16).2)
      (poly_step_fst_lt _ _ _ _ _ _) (poly_step_snd_lt _ _ _ _ _ _)
    refine hih.trans ?_
    have hmul := (hstep.mul_right ((pkh * 2 ^ 64 + pkl) ^ k)).add_right
      (∑ i ∈ Finset.range k,
        nhMaskedW mp kp (w + 16 + 16 * i) * (pkh * 2 ^ 64 + pkl) ^ (k - 1 - i))
    have hval : val128 (poly_step c.1 c.2 pkh pkl
        ((nh_16 (fun j => mp (w + j)) kp 16).1 % 2 ^ 62)
        (nh_16 (fun j => mp (w + j)) kp 16).2) =
        (poly_step c.1 c.2 pkh pkl
          ((nh_16 (fun j => mp (w + j)) kp 16).1 % 2 ^ 62)
          (nh_16 (fun j => mp (w + j)) kp 16).2).1 * 2 ^ 64 +
        (poly_step c.1 c.2 pkh pkl
          ((nh_16 (fun j => mp (w + j)) kp 16).1 % 2 ^ 62)
          (nh_16 (fun j => mp (w + j)) kp 16).2).2 := rfl
    have heq : (val128 c * (pkh * 2 ^ 64 + pkl) +
          (((nh_16 (fun j => mp (w + j)) kp 16).1 % 2 ^ 62) * 2 ^ 64 +
            (nh_16 (fun j => mp (w + j)) kp 16).2)) * (pkh * 2 ^ 64 + pkl) ^ k +
        (∑ i ∈ Finset.range k,
          nhMaskedW mp kp (w + 16 + 16 * i) * (pkh * 2 ^ 64 + pkl) ^ (k - 1 - i)) =
        val128 c * (pkh * 2 ^ 64 + pkl) ^ (k + 1) +
          ∑ i ∈ Finset.range (k + 1),
            nhMaskedW mp kp (w + 16 * i) * (pkh * 2 ^ 64 + pkl) ^ (k + 1 - 1 - i) := by
      rw [Finset.sum_range_succ']
      have hs : ∀ i, i ∈ Finset.range k →
          nhMaskedW mp kp (w + 16 * (i + 1)) * (pkh * 2 ^ 64 + pkl) ^ (k + 1 - 1 - (i + 1)) =
            nhMaskedW mp kp (w + 16 + 16 * i) * (pkh * 2 ^ 64 + pkl) ^ (k - 1 - i) := by
        intro i _
        rw [nhMaskedW_congr mp kp (w + 16 * (i + 1)) (w + 16 + 16 * i) (by ring)]
        rw [show k + 1 - 1 - (i + 1) = k - 1 - i from by omega]
      rw [Finset.sum_congr rfl hs]
      rw [nhMaskedW_congr mp kp (w + 16 * 0) w (by ring),
        show k + 1 - 1 - 0 = k from by omega]
      simp only [nhMaskedW]
      ring
    rw [← heq]
    exact hmul

theorem vhash_update_fbp (m : List Nat) (mbytes : Nat) (ctx : uvmax_ctx_t)
    (h : ctx.first_block_processed = true) :
    vhash_update m mbytes ctx =
      { ctx with
        polytmp0 := (pstepBlocks (fun j => get64LE m j) (fun j => ctx.nhkey.getD j 0)
          ctx.polykey0 ctx.polykey1 (mbytes / 128) 0 (ctx.polytmp0, ctx.polytmp1)).1
        polytmp1 := (pstepBlocks (fun j => get64LE m j) (fun j => ctx.nhkey.getD j 0)
          ctx.polykey0 ctx.polykey1 (mbytes / 128) 0 (ctx.polytmp0, ctx.polytmp1)).2 } := by
  simp only [vhash_update]
  rw [h, if_pos (Eq.refl true)]

theorem vhash_update_nfbp (m : List Nat) (mbytes : Nat) (ctx : uvmax_ctx_t)
    (h : ctx.first_block_processed = false) :
    vhash_update m mbytes ctx =
      { ctx with
        polytmp0 := (pstepBlocks (fun j => get64LE m j) (fun j => ctx.nhkey.getD j 0)
          ctx.polykey0 ctx.polykey1 (mbytes / 128 - 1) 16
          (ADD128 ctx.polytmp0 ctx.polytmp1
            ((nh_16 (fun j => get64LE m j) (fun j => ctx.nhkey.getD j 0) 16).1 % 2 ^ 62)
            (nh_16 (fun j => get64LE m j) (fun j => ctx.nhkey.getD j 0) 16).2)).1
        polytmp1 := (pstepBlocks (fun j => get64LE m j) (fun j => ctx.nhkey.getD j 0)
          ctx.polykey0 ctx.polykey1 (mbytes / 128 - 1) 16
          (ADD128 ctx.polytmp0 ctx.polytmp1
            ((nh_16 (fun j => get64LE m j) (fun j => ctx.nhkey.getD j 0) 16).1 % 2 ^ 62)
            (nh_16 (fun j => get64LE m j) (fun j => ctx.nhkey.getD j 0) 16).2)).2
        first_block_processed := true } := by
  simp only [vhash_update]
  rw [h, if_neg (by decide : ¬((false : Bool) = true))]

theorem vhash_core_fbp_rem0 (m : List Nat) (mbytes : Nat) (ctx : uvmax_ctx_t)
    (h : ctx.first_block_processed = true) (hr : mbytes % 128 = 0) :
    vhash_core m mbytes ctx =
      pstepBlocks (fun j => get64LE m j) (fun j => ctx.nhkey.getD j 0)
        ctx.polykey0 ctx.polykey1 (mbytes / 128) 0 (ctx.polytmp0, ctx.polytmp1) := by
  simp only [vhash_core]
  rw [h, hr, if_pos (Eq.refl true), if_neg (not_not_intro (Eq.refl 0))]

theorem vhash_core_fbp_rem (m : List Nat) (mbytes r : Nat) (ctx : uvmax_ctx_t)
    (h : ctx.first_block_processed = true) (hr : mbytes % 128 = r + 1) :
    vhash_core m mbytes ctx =
      poly_step
        (pstepBlocks (fun j => get64LE m j) (fun j => ctx.nhkey.getD j 0)
          ctx.polykey0 ctx.polykey1 (mbytes / 128) 0 (ctx.polytmp0, ctx.polytmp1)).1
        (pstepBlocks (fun j => get64LE m j) (fun j => ctx.nhkey.getD j 0)
          ctx.polykey0 ctx.polykey1 (mbytes / 128) 0 (ctx.polytmp0, ctx.polytmp1)).2
        ctx.polykey0 ctx.polykey1
        ((nh_16 (fun j => get64LE m (16 * (mbytes / 128) + j)) (fun j => ctx.nhkey.getD j 0)
          (2 * ((r + 1 + 15) / 16))).1 % 2 ^ 62)
        (nh_16 (fun j => get64LE m (16 * (mbytes / 128) + j)) (fun j => ctx.nhkey.getD j 0)
          (2 * ((r + 1 + 15) / 16))).2 := by
  simp only [vhash_core]
  rw [h, hr, if_pos (Eq.refl true), if_pos (by omega : r + 1 ≠ 0)]

theorem vhash_core_nfbp_rem0 (m : List Nat) (mbytes q : Nat) (ctx : uvmax_ctx_t)
    (h : ctx.first_block_processed = false) (hq : mbytes / 128 = q + 1)
    (hr : mbytes % 128 = 0) :
    vhash_core m mbytes ctx =
      pstepBlocks (fun j => get64LE m j) (fun j => ctx.nhkey.getD j 0)
        ctx.polykey0 ctx.polykey1 q 16
        (ADD128
          ((nh_16 (fun j => get64LE m j) (fun j => ctx.nhkey.getD j 0) 16).1 % 2 ^ 62)
          (nh_16 (fun j => get64LE m j) (fun j => ctx.nhkey.getD j 0) 16).2
          ctx.polykey0 ctx.polykey1) := by
  simp only [vhash_core]
  rw [h, hq, hr, if_neg (by decide : ¬((false : Bool) = true)),
    if_pos (by omega : q + 1 ≠ 0), if_neg (not_not_intro (Eq.refl 0)), Nat.add_sub_cancel]

theorem vhash_core_nfbp_rem (m : List Nat) (mbytes q r : Nat) (ctx : uvmax_ctx_t)
    (h : ctx.first_block_processed = false) (hq : mbytes / 128 = q + 1)
    (hr : mbytes % 128 = r + 1) :
    vhash_core m mbytes ctx =
      poly_step
        (pstepBlocks (fun j => get64LE m j) (fun j => ctx.nhkey.getD j 0)
          ctx.polykey0 ctx.polykey1 q 16
          (ADD128
            ((nh_16 (fun j => get64LE m j) (fun j => ctx.nhkey.getD j 0) 16).1 % 2 ^ 62)
            (nh_16 (fun j => get64LE m j) (fun j => ctx.nhkey.getD j 0) 16).2
            ctx.polykey0 ctx.polykey1)).1
        (pstepBlocks (fun j => get64LE m j) (fun j => ctx.nhkey.getD j 0)
          ctx.polykey0 ctx.polykey1 q 16
          (ADD128
            ((nh_16 (fun j => get64LE m j) (fun j => ctx.nhkey.getD j 0) 16).1 % 2 ^ 62)
            (nh_16 (fun j => get64LE m j) (fun j => ctx.nhkey.getD j 0) 16).2
            ctx.polykey0 ctx.polykey1)).2
        ctx.polykey0 ctx.polykey1
        ((nh_16 (fun j => get64LE m (16 * (q + 1) + j)) (fun j => ctx.nhkey.getD j 0)
          (2 * ((r + 1 + 15) / 16))).1 % 2 ^ 62)
        (nh_16 (fun j => get64LE m (16 * (q + 1) + j)) (fun j => ctx.nhkey.getD j 0)
          (2 * ((r + 1 + 15) / 16))).2 := by
  simp only [vhash_core]
  rw [h, hq, hr, if_neg (by decide : ¬((false : Bool) = true)),
    if_pos (by omega : q + 1 ≠ 0), if_pos (by omega : r + 1 ≠ 0), Nat.add_sub_cancel]

theorem vhash_core_short (m : List Nat) (mbytes r : Nat) (ctx : uvmax_ctx_t)
    (h : ctx.first_block_processed = false) (hq : mbytes / 128 = 0)
    (hr : mbytes % 128 = r + 1) :
    vhash_core m mbytes ctx =
      ADD128
        ((nh_16 (fun j => get64LE m j) (fun j => ctx.nhkey.getD j 0)
          (2 * ((r + 1 + 15) / 16))).1 % 2 ^ 62)
        (nh_16 (fun j => get64LE m j) (fun j => ctx.nhkey.getD j 0)
          (2 * ((r + 1 + 15) / 16))).2
        ctx.polykey0 ctx.polykey1 := by
  simp only [vhash_core]
  rw [h, hq, hr, if_neg (by decide : ¬((false : Bool) = true)),
    if_neg (not_not_intro (Eq.refl 0)), if_pos (by omega : r + 1 ≠ 0)]

theorem vhash_core_empty (m : List Nat) (mbytes : Nat) (ctx : uvmax_ctx_t)
    (h : ctx.first_block_processed = false) (hq : mbytes / 128 = 0)
    (hr : mbytes % 128 = 0) :
    vhash_core m mbytes ctx = (ctx.polykey0, ctx.polykey1) := by
  simp only [vhash_core]
  rw [h, hq, hr, if_neg (by decide : ¬((false : Bool) = true)),
    if_neg (not_not_intro (Eq.refl 0)), if_neg (not_not_intro (Eq.refl 0))]

/-- C1: for a fresh context, vhash_update combines the first full block by
128-bit addition (polytmp becomes polykey plus the 62-bit-masked NH output,
mod 2^128), and after absorbing n full blocks the accumulator Horner
polynomial is the MONIC degree-n polynomial k^n + h1*k^(n-1) + ... + hn in
the poly key k modulo 2^127 - 1, whose coefficient below the leading term -
not whose constant term - is the first NH output. -/
theorem vhash_update_first_block_add_poly (m : List Nat) (n : Nat) (ctx : uvmax_ctx_t)
    (hn : 1 ≤ n)
    (hfbp : ctx.first_block_processed = false)
    (hpt0 : ctx.polytmp0 = ctx.polykey0) (hpt1 : ctx.polytmp1 = ctx.polykey1)
    (hk0 : ctx.polykey0 ≤ mpoly) (hk1 : ctx.polykey1 ≤ mpoly) :
    val128 ((vhash_update m 128 ctx).polytmp0, (vhash_update m 128 ctx).polytmp1) =
        (val128 (ctx.polykey0, ctx.polykey1) +
          (((nh_16 (fun j => get64LE m j) (fun j => ctx.nhkey.getD j 0) 16).1 % 2 ^ 62) *
              2 ^ 64 +
            (nh_16 (fun j => get64LE m j) (fun j => ctx.nhkey.getD j 0) 16).2)) % 2 ^ 128 ∧
      val128 ((vhash_update m (128 * n) ctx).polytmp0,
          (vhash_update m (128 * n) ctx).polytmp1) ≡
        (ctx.polykey0 * 2 ^ 64 + ctx.polykey1) ^ n +
          ∑ i ∈ Finset.range n,
            nhMaskedW (fun j => get64LE m j) (fun j => ctx.nhkey.getD j 0) (16 * i) *
              (ctx.polykey0 * 2 ^ 64 + ctx.polykey1) ^ (n - 1 - i) [MOD p127] := by
  have hk064 : ctx.polykey0 < 2 ^ 64 := lt_of_le_of_lt hk0 (by norm_num [mpoly])
  have hk164 : ctx.polykey1 < 2 ^ 64 := lt_of_le_of_lt hk1 (by norm_num [mpoly])
  have hnb := nh_16_bounds (fun j => get64LE m j) (fun j => ctx.nhkey.getD j 0) 16
  constructor
  · rw [vhash_update_nfbp m 128 ctx hfbp]
    simp only []
    have h0 : (128 : Nat) / 128 - 1 = 0 := by norm_num
    rw [h0]
    simp only [pstepBlocks]
    rw [hpt0, hpt1]
    rw [ADD128_val_mod _ _ _ _ hk064 hk164
      (lt_of_lt_of_le (Nat.mod_lt _ (by norm_num)) (by norm_num)) hnb.2]
    simp only [val128]
  · rw [vhash_update_nfbp m (128 * n) ctx hfbp]
    simp only []
    have hdiv : 128 * n / 128 = n := Nat.mul_div_cancel_left n (by norm_num)
    rw [hdiv, hpt0, hpt1]
    -- the first-block accumulator is an exact sum
    have hmask : (nh_16 (fun j => get64LE m j) (fun j => ctx.nhkey.getD j 0) 16).1 % 2 ^ 62 <
        2 ^ 62 := Nat.mod_lt _ (by norm_num)
    have hadd := ADD128_val_mod ctx.polykey0 ctx.polykey1
      ((nh_16 (fun j => get64LE m j) (fun j => ctx.nhkey.getD j 0) 16).1 % 2 ^ 62)
      (nh_16 (fun j => get64LE m j) (fun j => ctx.nhkey.getD j 0) 16).2
      hk064 hk164 (by omega) hnb.2
    have hky : ctx.polykey0 * 2 ^ 64 + ctx.polykey1 < 2 ^ 126 := by
      have := mpoly_lt; omega
    have hexact : val128 (ADD128 ctx.polykey0 ctx.polykey1
        ((nh_16 (fun j => get64LE m j) (fun j => ctx.nhkey.getD j 0) 16).1 % 2 ^ 62)
        (nh_16 (fun j => get64LE m j) (fun j => ctx.nhkey.getD j 0) 16).2) =
        (ctx.polykey0 * 2 ^ 64 + ctx.polykey1) +
          (((nh_16 (fun j => get64LE m j) (fun j => ctx.nhkey.getD j 0) 16).1 % 2 ^ 62) *
              2 ^ 64 +
            (nh_16 (fun j => get64LE m j) (fun j => ctx.nhkey.getD j 0) 16).2) := by
      rw [hadd]
      exact Nat.mod_eq_of_lt (by omega)
    have hhorn := pstepBlocks_horner (fun j => get64LE m j) (fun j => ctx.nhkey.getD j 0)
      ctx.polykey0 ctx.polykey1 hk0 hk1 (n - 1) 16
      (ADD128 ctx.polykey0 ctx.polykey1
        ((nh_16 (fun j => get64LE m j) (fun j => ctx.nhkey.getD j 0) 16).1 % 2 ^ 62)
        (nh_16 (fun j => get64LE m j) (fun j => ctx.nhkey.getD j 0) 16).2)
      (ADD128_fst_lt _ _ _ _) (ADD128_snd_lt _ _ _ _)
    refine hhorn.trans ?_
    rw [hexact]
    -- fold the first block into the sum
    obtain ⟨k0, hk0n⟩ : ∃ t, n = t + 1 := ⟨n - 1, by omega⟩
    subst hk0n
    simp only [Nat.add_sub_cancel]
    have hfirst : nhMaskedW (fun j => get64LE m j) (fun j => ctx.nhkey.getD j 0) (16 * 0) =
        ((nh_16 (fun j => get64LE m j) (fun j => ctx.nhkey.getD j 0) 16).1 % 2 ^ 62) * 2 ^ 64 +
          (nh_16 (fun j => get64LE m j) (fun j => ctx.nhkey.getD j 0) 16).2 := by
      simp only [nhMaskedW]
      rw [nh_16_ext (fun j => get64LE m (16 * 0 + j)) (fun j => get64LE m j)
        (fun j => ctx.nhkey.getD j 0) 16
        (fun j _ => congrArg (get64LE m) (by omega))]
    have hsum : ∑ i ∈ Finset.range (k0 + 1),
        nhMaskedW (fun j => get64LE m j) (fun j => ctx.nhkey.getD j 0) (16 * i) *
          (ctx.polykey0 * 2 ^ 64 + ctx.polykey1) ^ (k0 - i) =
        (∑ i ∈ Finset.range k0,
          nhMaskedW (fun j => get64LE m j) (fun j => ctx.nhkey.getD j 0) (16 + 16 * i) *
            (ctx.polykey0 * 2 ^ 64 + ctx.polykey1) ^ (k0 - 1 - i)) +
        (((nh_16 (fun j => get64LE m j) (fun j => ctx.nhkey.getD j 0) 16).1 % 2 ^ 62) *
            2 ^ 64 +
          (nh_16 (fun j => get64LE m j) (fun j => ctx.nhkey.getD j 0) 16).2) *
          (ctx.polykey0 * 2 ^ 64 + ctx.polykey1) ^ k0 := by
      rw [Finset.sum_range_succ']
      have hs : ∀ i, i ∈ Finset.range k0 →
          nhMaskedW (fun j => get64LE m j) (fun j => ctx.nhkey.getD j 0) (16 * (i + 1)) *
            (ctx.polykey0 * 2 ^ 64 + ctx.polykey1) ^ (k0 - (i + 1)) =
          nhMaskedW (fun j => get64LE m j) (fun j => ctx.nhkey.getD j 0) (16 + 16 * i) *
            (ctx.polykey0 * 2 ^ 64 + ctx.polykey1) ^ (k0 - 1 - i) := by
        intro i _
        rw [nhMaskedW_congr (fun j => get64LE m j) (fun j => ctx.nhkey.getD j 0)
          (16 * (i + 1)) (16 + 16 * i) (by ring),
          show k0 - (i + 1) = k0 - 1 - i from by omega]
      rw [Finset.sum_congr rfl hs, hfirst, show k0 - 0 = k0 from by omega]
    rw [hsum]
    have : (ctx.polykey0 * 2 ^ 64 + ctx.polykey1 +
          (((nh_16 (fun j => get64LE m j) (fun j => ctx.nhkey.getD j 0) 16).1 % 2 ^ 62) *
              2 ^ 64 +
            (nh_16 (fun j => get64LE m j) (fun j => ctx.nhkey.getD j 0) 16).2)) *
          (ctx.polykey0 * 2 ^ 64 + ctx.polykey1) ^ k0 +
        ∑ i ∈ Finset.range k0,
          nhMaskedW (fun j => get64LE m j) (fun j => ctx.nhkey.getD j 0) (16 + 16 * i) *
            (ctx.polykey0 * 2 ^ 64 + ctx.polykey1) ^ (k0 - 1 - i) =
        (ctx.polykey0 * 2 ^ 64 + ctx.polykey1) ^ (k0 + 1) +
          ((∑ i ∈ Finset.range k0,
            nhMaskedW (fun j => get64LE m j) (fun j => ctx.nhkey.getD j 0) (16 + 16 * i) *
              (ctx.polykey0 * 2 ^ 64 + ctx.polykey1) ^ (k0 - 1 - i)) +
          (((nh_16 (fun j => get64LE m j) (fun j => ctx.nhkey.getD j 0) 16).1 % 2 ^ 62) *
              2 ^ 64 +
            (nh_16 (fun j => get64LE m j) (fun j => ctx.nhkey.getD j 0) 16).2) *
            (ctx.polykey0 * 2 ^ 64 + ctx.polykey1) ^ k0) := by ring
    rw [this]

/- ------------------------------------------------------------------ -/
/- Concrete test fixtures                                             -/
/- ------------------------------------------------------------------ -/

/-- An all-zero 160-byte user key (20 64-bit words). -/
def zeroUserKey : List Nat := List.replicate 160 0

/-- The context produced by uvmac_set_key on the all-zero user key. -/
def ctxZero : uvmax_ctx_t :=
  { nhkey := List.replicate 16 0
    polykey0 := 0
    polykey1 := 0
    l3key0 := 0
    l3key1 := 0
    polytmp0 := 0
    polytmp1 := 0
    first_block_processed := false }

/-- A 256-byte message (two full NH blocks) whose first block has NH value 1
and whose second block has NH value 4 under the all-zero NH key. -/
def cexMsg : List Nat :=
  (List.range 256).map fun i =>
    if i = 0 then 1 else if i = 8 then 1 else if i = 128 then 2 else if i = 136 then 2 else 0

/-- C1 counterexample: for the set_key-produced all-zero-key fresh context
and a concrete two-block message, the accumulator after absorbing both
blocks is NOT the degree-1 polynomial in the poly key whose constant term
is the first NH output (even modulo 2^127 - 1): the constant term of the
effective polynomial is the LAST NH output, not the first. -/
theorem uvmac_c1_counterexample :
    uvmac_set_key zeroUserKey 20 = some ctxZero ∧
      ctxZero.first_block_processed = false ∧
      ctxZero.polytmp0 = ctxZero.polykey0 ∧ ctxZero.polytmp1 = ctxZero.polykey1 ∧
      ctxZero.polykey0 ≤ mpoly ∧ ctxZero.polykey1 ≤ mpoly ∧
      ¬(val128 ((vhash_update cexMsg 256 ctxZero).polytmp0,
            (vhash_update cexMsg 256 ctxZero).polytmp1) ≡
          nhMaskedW (fun j => get64LE cexMsg j) (fun j => ctxZero.nhkey.getD j 0) (16 * 1) *
              (ctxZero.polykey0 * 2 ^ 64 + ctxZero.polykey1) +
            nhMaskedW (fun j => get64LE cexMsg j) (fun j => ctxZero.nhkey.getD j 0) (16 * 0)
          [MOD p127]) := by
  refine ⟨by decide, rfl, rfl, rfl, by decide, by decide, ?_⟩
  decide

theorem uvmac_c1_witness :
    1 ≤ 2 ∧ ctxZero.first_block_processed = false ∧
      ctxZero.polytmp0 = ctxZero.polykey0 ∧ ctxZero.polytmp1 = ctxZero.polykey1 ∧
      ctxZero.polykey0 ≤ mpoly ∧ ctxZero.polykey1 ≤ mpoly ∧
      val128 ((vhash_update cexMsg (128 * 2) ctxZero).polytmp0,
          (vhash_update cexMsg (128 * 2) ctxZero).polytmp1) ≡
        (ctxZero.polykey0 * 2 ^ 64 + ctxZero.polykey1) ^ 2 +
          ∑ i ∈ Finset.range 2,
            nhMaskedW (fun j => get64LE cexMsg j) (fun j => ctxZero.nhkey.getD j 0) (16 * i) *
              (ctxZero.polykey0 * 2 ^ 64 + ctxZero.polykey1) ^ (2 - 1 - i) [MOD p127] :=
  ⟨by norm_num, rfl, rfl, rfl, by decide, by decide,
    (vhash_update_first_block_add_poly cexMsg 2 ctxZero (by norm_num) rfl rfl rfl
      (by decide) (by decide)).2⟩

/-- C3: for a message block read as little-endian 64-bit words and a key
window, the NH hash returns the sum over even i of
(m[i]+k[i] mod 2^64)*(m[i+1]+k[i+1] mod 2^64), accumulated modulo 2^128. -/
theorem nh_pairwise_product_formula (m : List Nat) (kp : Nat → Nat) (q : Nat) :
    val128 (nh_16 (fun j => get64LE m j) kp (2 * q)) =
      (∑ j ∈ Finset.range q,
        ((get64LE m (2 * j) + kp (2 * j)) % 2 ^ 64) *
          ((get64LE m (2 * j + 1) + kp (2 * j + 1)) % 2 ^ 64)) % 2 ^ 128 :=
  nh_16_val (fun j => get64LE m j) kp q

/-- C4 counterexample: a concrete input satisfying all claimed preconditions
(a_hi < 2^63, both poly key words with the 29-bit-lane mask applied,
m_hi < 2^62) for which the output hi word is NOT below 2^63: the claimed
postcondition a_hi' < 2^63 is not re-established. -/
theorem poly_step_postcondition_counterexample :
    (2 ^ 63 - 1 : Nat) < 2 ^ 63 ∧ mpoly &&& mpoly = mpoly ∧ (2 ^ 62 - 1 : Nat) < 2 ^ 62 ∧
      (0 : Nat) < 2 ^ 64 ∧
      ¬((poly_step (2 ^ 63 - 1) 0 mpoly mpoly (2 ^ 62 - 1) 0).1 < 2 ^ 63) := by decide

/-- C4 (amended): under the claimed preconditions the result pair is
congruent to a*k + m modulo 2^127 - 1, and the hi word is bounded by
2^63 + 2^62 (it can exceed 2^63, so only this weaker bound is
re-established; the congruence still holds on such states). -/
theorem poly_step_mod_p127 (ah al kh kl mh ml : Nat)
    (hah : ah < 2 ^ 63) (hal : al < 2 ^ 64)
    (hkh : kh &&& mpoly = kh) (hkl : kl &&& mpoly = kl)
    (hmh : mh < 2 ^ 62) (hml : ml < 2 ^ 64) :
    val128 (poly_step ah al kh kl mh ml) ≡
        (ah * 2 ^ 64 + al) * (kh * 2 ^ 64 + kl) + (mh * 2 ^ 64 + ml) [MOD p127] ∧
      (poly_step ah al kh kl mh ml).1 ≤ 2 ^ 63 + 2 ^ 62 := by
  have h1 : kh ≤ mpoly := by rw [← hkh]; exact Nat.and_le_right
  have h2 : kl ≤ mpoly := by rw [← hkl]; exact Nat.and_le_right
  exact poly_step_congr ah al kh kl mh ml (by omega) hal h1 h2 hmh hml

theorem poly_step_mod_p127_witness :
    (1 : Nat) < 2 ^ 63 ∧ (1 : Nat) < 2 ^ 64 ∧ (1 : Nat) &&& mpoly = 1 ∧ (1 : Nat) < 2 ^ 62 ∧
      (val128 (poly_step 1 1 1 1 1 1) ≡
          (1 * 2 ^ 64 + 1) * (1 * 2 ^ 64 + 1) + (1 * 2 ^ 64 + 1) [MOD p127] ∧
        (poly_step 1 1 1 1 1 1).1 ≤ 2 ^ 63 + 2 ^ 62) :=
  ⟨by decide, by decide, by decide, by decide,
    poly_step_mod_p127 1 1 1 1 1 1 (by decide) (by decide) (by decide) (by decide)
      (by decide) (by decide)⟩

/-- C5: finalization passes 8*(mbytes mod 128) - the remainder in bits - as
the length argument of l3hash, so any two message lengths that differ by a
multiple of 128 bytes are finalized with the same length encoding. -/
theorem vhash_length_encoding (m : List Nat) (mbytes j : Nat) (ctx : uvmax_ctx_t) :
    (vhash m mbytes ctx).1 =
      l3hash (vhash_core m mbytes ctx).1 (vhash_core m mbytes ctx).2 ctx.l3key0 ctx.l3key1
        (8 * (mbytes % 128)) ∧
      8 * ((mbytes + 128 * j) % 128) = 8 * (mbytes % 128) :=
  ⟨rfl, by omega⟩

/-- C6: on a context whose first-block flag is clear, the empty message is
hashed with the poly key itself as the final poly state, so vhash returns
l3hash applied to the poly key with length encoding 0 (and the reset
context). -/
theorem vhash_empty_message (m : List Nat) (ctx : uvmax_ctx_t)
    (hfbp : ctx.first_block_processed = false) :
    vhash m 0 ctx =
        (l3hash ctx.polykey0 ctx.polykey1 ctx.l3key0 ctx.l3key1 0, vhash_abort ctx) ∧
      vhash_core m 0 ctx = (ctx.polykey0, ctx.polykey1) := by
  have hcore := vhash_core_empty m 0 ctx hfbp (by norm_num) (by norm_num)
  exact ⟨by simp [vhash, hcore], hcore⟩

theorem vhash_empty_message_witness :
    ctxZero.first_block_processed = false ∧
      (vhash [] 0 ctxZero =
          (l3hash ctxZero.polykey0 ctxZero.polykey1 ctxZero.l3key0 ctxZero.l3key1 0,
            vhash_abort ctxZero) ∧
        vhash_core [] 0 ctxZero = (ctxZero.polykey0, ctxZero.polykey1)) :=
  ⟨rfl, vhash_empty_message [] ctxZero rfl⟩

/- ------------------------------------------------------------------ -/
/- Frame helper lemmas: hashing operations never touch key material   -/
/- ------------------------------------------------------------------ -/

theorem vhash_update_keys (m : List Nat) (mbytes : Nat) (ctx : uvmax_ctx_t) :
    (vhash_update m mbytes ctx).nhkey = ctx.nhkey ∧
      (vhash_update m mbytes ctx).polykey0 = ctx.polykey0 ∧
      (vhash_update m mbytes ctx).polykey1 = ctx.polykey1 ∧
      (vhash_update m mbytes ctx).l3key0 = ctx.l3key0 ∧
      (vhash_update m mbytes ctx).l3key1 = ctx.l3key1 := by
  cases hb : ctx.first_block_processed
  · rw [vhash_update_nfbp m mbytes ctx hb]
    exact ⟨rfl, rfl, rfl, rfl, rfl⟩
  · rw [vhash_update_fbp m mbytes ctx hb]
    exact ⟨rfl, rfl, rfl, rfl, rfl⟩

theorem vhash_abort_keys (ctx : uvmax_ctx_t) :
    (vhash_abort ctx).nhkey = ctx.nhkey ∧
      (vhash_abort ctx).polykey0 = ctx.polykey0 ∧
      (vhash_abort ctx).polykey1 = ctx.polykey1 ∧
      (vhash_abort ctx).l3key0 = ctx.l3key0 ∧
      (vhash_abort ctx).l3key1 = ctx.l3key1 :=
  ⟨rfl, rfl, rfl, rfl, rfl⟩

theorem vhash_snd_eq (m : List Nat) (mbytes : Nat) (ctx : uvmax_ctx_t) :
    (vhash m mbytes ctx).2 = vhash_abort ctx := rfl

theorem vhash_abort_update (m : List Nat) (mbytes : Nat) (ctx : uvmax_ctx_t) :
    vhash_abort (vhash_update m mbytes ctx) = vhash_abort ctx := by
  cases hb : ctx.first_block_processed
  · rw [vhash_update_nfbp m mbytes ctx hb]
    simp only [vhash_abort]
  · rw [vhash_update_fbp m mbytes ctx hb]
    simp only [vhash_abort]

/-- C10: every hashing-side operation (vhash_update, vhash, uvmac,
vhash_abort) leaves the key material of the context (nhkey, polykey, l3key)
unchanged; only the polytmp accumulator and the first-block flag are
mutated. -/
theorem hashing_ops_preserve_keys (m : List Nat) (mbytes : Nat) (ctx : uvmax_ctx_t)
    (ck : List Nat) (ckl ckp : Nat) :
    ((vhash_update m mbytes ctx).nhkey = ctx.nhkey ∧
      (vhash_update m mbytes ctx).polykey0 = ctx.polykey0 ∧
      (vhash_update m mbytes ctx).polykey1 = ctx.polykey1 ∧
      (vhash_update m mbytes ctx).l3key0 = ctx.l3key0 ∧
      (vhash_update m mbytes ctx).l3key1 = ctx.l3key1) ∧
    ((vhash m mbytes ctx).2.nhkey = ctx.nhkey ∧
      (vhash m mbytes ctx).2.polykey0 = ctx.polykey0 ∧
      (vhash m mbytes ctx).2.polykey1 = ctx.polykey1 ∧
      (vhash m mbytes ctx).2.l3key0 = ctx.l3key0 ∧
      (vhash m mbytes ctx).2.l3key1 = ctx.l3key1) ∧
    ((vhash_abort ctx).nhkey = ctx.nhkey ∧
      (vhash_abort ctx).polykey0 = ctx.polykey0 ∧
      (vhash_abort ctx).polykey1 = ctx.polykey1 ∧
      (vhash_abort ctx).l3key0 = ctx.l3key0 ∧
      (vhash_abort ctx).l3key1 = ctx.l3key1) ∧
    (uvmac m mbytes ctx ck ckl ckp).map
        (fun r => (r.2.1.nhkey, r.2.1.polykey0, r.2.1.polykey1, r.2.1.l3key0, r.2.1.l3key1)) =
      (uvmac m mbytes ctx ck ckl ckp).map
        (fun _ => (ctx.nhkey, ctx.polykey0, ctx.polykey1, ctx.l3key0, ctx.l3key1)) := by
  refine ⟨vhash_update_keys m mbytes ctx, ⟨rfl, rfl, rfl, rfl, rfl⟩,
    vhash_abort_keys ctx, ?_⟩
  unfold uvmac
  cases h : get64bitsOfKey ck ckl ckp
  · rfl
  · rfl

/-- C9: the pad-key cursor contract of get64bitsOfKey: when the cursor is
below the key length it yields the big-endian word at the cursor and the
cursor advanced by exactly one; otherwise it fails (the C code prints and
calls assert(0), aborting the process - modelled here as none). -/
theorem get64bitsOfKey_contract (ck : List Nat) (kl cur : Nat) :
    get64bitsOfKey ck kl cur =
      if cur < kl then some (get64BE ck cur, cur + 1) else none := by
  unfold get64bitsOfKey
  split_ifs with h1 h2 <;> first | rfl | omega

/- ------------------------------------------------------------------ -/
/- Key schedule lemmas                                                -/
/- ------------------------------------------------------------------ -/

theorem masked_and_compl (w : Nat) : (w &&& mpoly) &&& 0xe0000000e0000000 = 0 := by
  rw [Nat.land_assoc]
  rw [show mpoly &&& 0xe0000000e0000000 = 0 from by decide]
  simp

theorem drawL3Word_lt (uk : List Nat) (klen : Nat) :
    ∀ (fuel cur : Nat) (wc : Nat × Nat), drawL3Word uk klen fuel cur = some wc →
      wc.1 < p64 := by
  intro fuel
  induction fuel with
  | zero => intro cur wc h; exact absurd h (by simp [drawL3Word])
  | succ f ih =>
    intro cur wc h
    unfold drawL3Word at h
    cases hg : get64bitsOfKey uk klen cur with
    | none => rw [hg] at h; exact absurd h (by simp)
    | some wc' =>
      rw [hg] at h
      simp only [] at h
      split_ifs at h with hge
      · exact ih _ _ h
      · cases h
        omega

theorem uvmac_set_key_post (uk : List Nat) (klen : Nat) (ctx' : uvmax_ctx_t)
    (h : uvmac_set_key uk klen = some ctx') :
    ctx'.l3key0 < p64 ∧ ctx'.l3key1 < p64 ∧
      ctx'.polykey0 &&& 0xe0000000e0000000 = 0 ∧
      ctx'.polykey1 &&& 0xe0000000e0000000 = 0 ∧
      ctx'.polytmp0 = ctx'.polykey0 ∧ ctx'.polytmp1 = ctx'.polykey1 ∧
      ctx'.first_block_processed = false := by
  unfold uvmac_set_key at h
  cases h1 : fillWords uk klen 16 0 with
  | none => rw [h1] at h; exact absurd h (by simp)
  | some nhc =>
    rw [h1] at h
    simp only [] at h
    cases h2 : fillWords uk klen 2 nhc.2 with
    | none => rw [h2] at h; exact absurd h (by simp)
    | some pkc =>
      rw [h2] at h
      simp only [] at h
      cases h3 : drawL3Word uk klen (klen + 1) pkc.2 with
      | none => rw [h3] at h; exact absurd h (by simp)
      | some l3a =>
        rw [h3] at h
        simp only [] at h
        cases h4 : drawL3Word uk klen (klen + 1) l3a.2 with
        | none => rw [h4] at h; exact absurd h (by simp)
        | some l3b =>
          rw [h4] at h
          simp only [] at h
          have he := Option.some.inj h
          subst he
          exact ⟨drawL3Word_lt uk klen _ _ _ h3, drawL3Word_lt uk klen _ _ _ h4,
            masked_and_compl _, masked_and_compl _, rfl, rfl, rfl⟩

/-- C7 (amended): after every successful set_key the key-domain conditions
hold - both l3 key words are below p64, both poly key words carry the
two-lane mask, polytmp equals polykey and the first-block flag is clear -
and the key-domain conditions on the stored keys are preserved by every
subsequent hashing operation.  The equation polytmp = polykey, however, is
NOT preserved by vhash_update (whose purpose is to advance polytmp); it is
re-established by vhash_abort and by finalization. -/
theorem set_key_key_domain_invariant (uk : List Nat) (klen : Nat) (ctx' : uvmax_ctx_t)
    (m : List Nat) (mbytes : Nat)
    (h : uvmac_set_key uk klen = some ctx') :
    (ctx'.l3key0 < p64 ∧ ctx'.l3key1 < p64 ∧
      ctx'.polykey0 &&& 0xe0000000e0000000 = 0 ∧
      ctx'.polykey1 &&& 0xe0000000e0000000 = 0 ∧
      ctx'.polytmp0 = ctx'.polykey0 ∧ ctx'.polytmp1 = ctx'.polykey1 ∧
      ctx'.first_block_processed = false) ∧
    ((vhash_update m mbytes ctx').l3key0 < p64 ∧
      (vhash_update m mbytes ctx').l3key1 < p64 ∧
      (vhash_update m mbytes ctx').polykey0 &&& 0xe0000000e0000000 = 0 ∧
      (vhash_update m mbytes ctx').polykey1 &&& 0xe0000000e0000000 = 0) ∧
    ((vhash m mbytes ctx').2.l3key0 < p64 ∧
      (vhash m mbytes ctx').2.l3key1 < p64 ∧
      (vhash m mbytes ctx').2.polykey0 &&& 0xe0000000e0000000 = 0 ∧
      (vhash m mbytes ctx').2.polykey1 &&& 0xe0000000e0000000 = 0) ∧
    ((vhash_abort ctx').l3key0 < p64 ∧
      (vhash_abort ctx').l3key1 < p64 ∧
      (vhash_abort ctx').polykey0 &&& 0xe0000000e0000000 = 0 ∧
      (vhash_abort ctx').polykey1 &&& 0xe0000000e0000000 = 0) ∧
    ((vhash_abort ctx').polytmp0 = (vhash_abort ctx').polykey0 ∧
      (vhash_abort ctx').polytmp1 = (vhash_abort ctx').polykey1 ∧
      (vhash m mbytes ctx').2.polytmp0 = (vhash m mbytes ctx').2.polykey0 ∧
      (vhash m mbytes ctx').2.polytmp1 = (vhash m mbytes ctx').2.polykey1) := by
  have hp := uvmac_set_key_post uk klen ctx' h
  have hu := vhash_update_keys m mbytes ctx'
  refine ⟨hp, ?_, ?_, ?_, ?_⟩
  · rw [hu.2.2.2.1, hu.2.2.2.2, hu.2.1, hu.2.2.1]
    exact ⟨hp.1, hp.2.1, hp.2.2.1, hp.2.2.2.1⟩
  · rw [vhash_snd_eq]
    exact ⟨hp.1, hp.2.1, hp.2.2.1, hp.2.2.2.1⟩
  · exact ⟨hp.1, hp.2.1, hp.2.2.1, hp.2.2.2.1⟩
  · exact ⟨rfl, rfl, rfl, rfl⟩

/-- C7 counterexample: the conjunct "polytmp equals polykey" of the claimed
invariant is not preserved by vhash_update: for the set_key-produced
all-zero-key context and one concrete full block, polytmp differs from
polykey afterwards. -/
theorem set_key_invariant_counterexample :
    uvmac_set_key zeroUserKey 20 = some ctxZero ∧
      ctxZero.polytmp0 = ctxZero.polykey0 ∧ ctxZero.polytmp1 = ctxZero.polykey1 ∧
      ¬((vhash_update cexMsg 128 ctxZero).polytmp0 =
            (vhash_update cexMsg 128 ctxZero).polykey0 ∧
          (vhash_update cexMsg 128 ctxZero).polytmp1 =
            (vhash_update cexMsg 128 ctxZero).polykey1) := by
  refine ⟨by decide, rfl, rfl, ?_⟩
  decide

theorem set_key_key_domain_invariant_witness :
    uvmac_set_key zeroUserKey 20 = some ctxZero ∧
      ((ctxZero.l3key0 < p64 ∧ ctxZero.l3key1 < p64 ∧
        ctxZero.polykey0 &&& 0xe0000000e0000000 = 0 ∧
        ctxZero.polykey1 &&& 0xe0000000e0000000 = 0 ∧
        ctxZero.polytmp0 = ctxZero.polykey0 ∧ ctxZero.polytmp1 = ctxZero.polykey1 ∧
        ctxZero.first_block_processed = false) ∧
      ((vhash_update cexMsg 128 ctxZero).l3key0 < p64 ∧
        (vhash_update cexMsg 128 ctxZero).l3key1 < p64 ∧
        (vhash_update cexMsg 128 ctxZero).polykey0 &&& 0xe0000000e0000000 = 0 ∧
        (vhash_update cexMsg 128 ctxZero).polykey1 &&& 0xe0000000e0000000 = 0) ∧
      ((vhash cexMsg 128 ctxZero).2.l3key0 < p64 ∧
        (vhash cexMsg 128 ctxZero).2.l3key1 < p64 ∧
        (vhash cexMsg 128 ctxZero).2.polykey0 &&& 0xe0000000e0000000 = 0 ∧
        (vhash cexMsg 128 ctxZero).2.polykey1 &&& 0xe0000000e0000000 = 0) ∧
      ((vhash_abort ctxZero).l3key0 < p64 ∧
        (vhash_abort ctxZero).l3key1 < p64 ∧
        (vhash_abort ctxZero).polykey0 &&& 0xe0000000e0000000 = 0 ∧
        (vhash_abort ctxZero).polykey1 &&& 0xe0000000e0000000 = 0) ∧
      ((vhash_abort ctxZero).polytmp0 = (vhash_abort ctxZero).polykey0 ∧
        (vhash_abort ctxZero).polytmp1 = (vhash_abort ctxZero).polykey1 ∧
        (vhash cexMsg 128 ctxZero).2.polytmp0 = (vhash cexMsg 128 ctxZero).2.polykey0 ∧
        (vhash cexMsg 128 ctxZero).2.polytmp1 = (vhash cexMsg 128 ctxZero).2.polykey1)) :=
  ⟨by decide,
    set_key_key_domain_invariant zeroUserKey 20 ctxZero cexMsg 128 (by decide)⟩

theorem get64LE_ext (m1 m2 : List Nat) (bnd w : Nat)
    (hag : ∀ t, t < 8 * bnd → byteAt m1 t = byteAt m2 t) (hw : w < bnd) :
    get64LE m1 w = get64LE m2 w := by
  unfold get64LE
  rw [hag (8 * w) (by omega), hag (8 * w + 1) (by omega), hag (8 * w + 2) (by omega),
    hag (8 * w + 3) (by omega), hag (8 * w + 4) (by omega), hag (8 * w + 5) (by omega),
    hag (8 * w + 6) (by omega), hag (8 * w + 7) (by omega)]

/-- C8 (amended): for a message tail of fewer than 128 bytes, the
finalization output depends only on the bytes in [0, ceil(tail_len/16)*16)
of the tail buffer - the message bytes AND the padding region, which the
tail NH reads as message material.  Bytes beyond that boundary are ignored.
(The padding region itself is NOT transparent: see the counterexample.) -/
theorem vhash_tail_reads_padded_region (m1 m2 : List Nat) (mbytes : Nat) (ctx : uvmax_ctx_t)
    (hmb : mbytes < 128)
    (hag : ∀ t, t < 16 * ((mbytes + 15) / 16) → byteAt m1 t = byteAt m2 t) :
    vhash m1 mbytes ctx = vhash m2 mbytes ctx := by
  have hq : mbytes / 128 = 0 := Nat.div_eq_of_lt hmb
  have hw : ∀ w, w < 2 * ((mbytes + 15) / 16) → get64LE m1 w = get64LE m2 w := by
    intro w hwlt
    exact get64LE_ext m1 m2 (2 * ((mbytes + 15) / 16)) w (fun t ht => hag t (by omega)) hwlt
  have hcore : vhash_core m1 mbytes ctx = vhash_core m2 mbytes ctx := by
    cases hb : ctx.first_block_processed
    · cases hr : mbytes % 128 with
      | zero =>
        rw [vhash_core_empty m1 mbytes ctx hb hq hr, vhash_core_empty m2 mbytes ctx hb hq hr]
      | succ r =>
        have hmr : mbytes = r + 1 := by omega
        rw [vhash_core_short m1 mbytes r ctx hb hq hr, vhash_core_short m2 mbytes r ctx hb hq hr]
        rw [nh_16_ext (fun j => get64LE m1 j) (fun j => get64LE m2 j)
          (fun j => ctx.nhkey.getD j 0) (2 * ((r + 1 + 15) / 16))
          (fun j hj => hw j (by omega))]
    · cases hr : mbytes % 128 with
      | zero =>
        rw [vhash_core_fbp_rem0 m1 mbytes ctx hb hr, vhash_core_fbp_rem0 m2 mbytes ctx hb hr,
          hq]
        simp only [pstepBlocks]
      | succ r =>
        have hmr : mbytes = r + 1 := by omega
        rw [vhash_core_fbp_rem m1 mbytes r ctx hb hr, vhash_core_fbp_rem m2 mbytes r ctx hb hr,
          hq]
        simp only [pstepBlocks]
        rw [nh_16_ext (fun j => get64LE m1 (16 * 0 + j)) (fun j => get64LE m2 (16 * 0 + j))
          (fun j => ctx.nhkey.getD j 0) (2 * ((r + 1 + 15) / 16))
          (fun j hj => by
            show get64LE m1 (16 * 0 + j) = get64LE m2 (16 * 0 + j)
            rw [show 16 * 0 + j = j from by omega]
            exact hw j (by omega))]
  unfold vhash
  rw [hcore]

/-- Patterned 160-byte user key (bytes 7*i+3 mod 256). -/
def patUserKey : List Nat := (List.range 160).map fun i => (7 * i + 3) % 256

/-- The context produced by uvmac_set_key on the patterned user key. -/
def ctxPat : uvmax_ctx_t :=
  match uvmac_set_key patUserKey 20 with
  | some c => c
  | none => ctxZero

/-- Nine-byte tail with zero-filled padding region [9, 16). -/
def padMsgA : List Nat := [1, 0, 0, 0, 0, 0, 0, 0, 1]

/-- The same nine-byte tail with padding byte 9 changed from 0 to 1. -/
def padMsgB : List Nat := [1, 0, 0, 0, 0, 0, 0, 0, 1, 1, 0, 0, 0, 0, 0, 0]

/-- C8 counterexample: replacing a zero byte of the padding region
[tail_len, ceil(tail_len/16)*16) by another value CHANGES the tag: the
padding bytes enter the tail NH computation as message words, which is why
callers must zero-fill them. -/
theorem vhash_padding_counterexample :
    uvmac_set_key patUserKey 20 = some ctxPat ∧
      (∀ t, t < 9 → byteAt padMsgA t = byteAt padMsgB t) ∧
      (vhash padMsgA 9 ctxPat).1 ≠ (vhash padMsgB 9 ctxPat).1 := by
  refine ⟨by decide, by decide, by decide⟩

/-- Sixteen-byte tail buffer. -/
def padMsgC : List Nat := List.replicate 16 5

/-- The same sixteen-byte tail buffer with an extra byte beyond the padded
region. -/
def padMsgD : List Nat := List.replicate 16 5 ++ [99]

theorem vhash_tail_reads_padded_region_witness :
    (1 : Nat) < 128 ∧ (∀ t, t < 16 * ((1 + 15) / 16) → byteAt padMsgC t = byteAt padMsgD t) ∧
      vhash padMsgC 1 ctxPat = vhash padMsgD 1 ctxPat :=
  ⟨by norm_num, by decide,
    vhash_tail_reads_padded_region padMsgC padMsgD 1 ctxPat (by norm_num) (by decide)⟩

theorem ADD128_comm (rh rl ih il : Nat) (h1 : rl < 2 ^ 64) (h2 : il < 2 ^ 64) :
    ADD128 rh rl ih il = ADD128 ih il rh rl := by
  rw [ADD128_eq rh rl ih il h1 h2, ADD128_eq ih il rh rl h2 h1]
  refine Prod.ext ?_ ?_ <;> simp only [] <;> omega

theorem byteAt_append_right (P Q : List Nat) (t t' : Nat) (ht : t = P.length + t') :
    byteAt (P ++ Q) t = byteAt Q t' := by
  unfold byteAt
  subst ht
  rw [List.getD_append_right P Q 0 (P.length + t') (by omega), Nat.add_sub_cancel_left]

theorem byteAt_append_left (P Q : List Nat) (t : Nat) (ht : t < P.length) :
    byteAt (P ++ Q) t = byteAt P t := by
  unfold byteAt
  rw [List.getD_append P Q 0 t ht]

theorem get64LE_append_right (P Q : List Nat) (a w : Nat) (hP : P.length = 128 * a) :
    get64LE (P ++ Q) (16 * a + w) = get64LE Q w := by
  unfold get64LE
  rw [byteAt_append_right P Q (8 * (16 * a + w)) (8 * w) (by omega),
    byteAt_append_right P Q (8 * (16 * a + w) + 1) (8 * w + 1) (by omega),
    byteAt_append_right P Q (8 * (16 * a + w) + 2) (8 * w + 2) (by omega),
    byteAt_append_right P Q (8 * (16 * a + w) + 3) (8 * w + 3) (by omega),
    byteAt_append_right P Q (8 * (16 * a + w) + 4) (8 * w + 4) (by omega),
    byteAt_append_right P Q (8 * (16 * a + w) + 5) (8 * w + 5) (by omega),
    byteAt_append_right P Q (8 * (16 * a + w) + 6) (8 * w + 6) (by omega),
    byteAt_append_right P Q (8 * (16 * a + w) + 7) (8 * w + 7) (by omega)]

theorem get64LE_append_left (P Q : List Nat) (a w : Nat) (hP : P.length = 128 * a)
    (hw : w < 16 * a) :
    get64LE (P ++ Q) w = get64LE P w := by
  unfold get64LE
  rw [byteAt_append_left P Q (8 * w) (by omega),
    byteAt_append_left P Q (8 * w + 1) (by omega),
    byteAt_append_left P Q (8 * w + 2) (by omega),
    byteAt_append_left P Q (8 * w + 3) (by omega),
    byteAt_append_left P Q (8 * w + 4) (by omega),
    byteAt_append_left P Q (8 * w + 5) (by omega),
    byteAt_append_left P Q (8 * w + 6) (by omega),
    byteAt_append_left P Q (8 * w + 7) (by omega)]

theorem vhash_update_fbp_true (m : List Nat) (mbytes : Nat) (ctx : uvmax_ctx_t) :
    (vhash_update m mbytes ctx).first_block_processed = true := by
  cases hb : ctx.first_block_processed
  · rw [vhash_update_nfbp m mbytes ctx hb]
  · rw [vhash_update_fbp m mbytes ctx hb]
    exact hb

theorem vhash_core_streaming (P Q : List Nat) (a qb : Nat) (ctx : uvmax_ctx_t)
    (ha : 1 ≤ a) (hP : P.length = 128 * a)
    (hctx : ctx.first_block_processed = false →
      ctx.polytmp0 = ctx.polykey0 ∧ ctx.polytmp1 = ctx.polykey1)
    (hpk1 : ctx.polykey1 < 2 ^ 64) :
    vhash_core (P ++ Q) (128 * a + qb) ctx =
      vhash_core Q qb (vhash_update P (128 * a) ctx) := by
  have hdiv : (128 * a + qb) / 128 = a - 1 + qb / 128 + 1 := by omega
  have hrem : (128 * a + qb) % 128 = qb % 128 := by omega
  have hPdiv : 128 * a / 128 = a := by omega
  have hfunR : (fun j => get64LE (P ++ Q) (16 * a + j)) = fun j => get64LE Q j :=
    funext fun j => get64LE_append_right P Q a j hP
  have hext16 : nh_16 (fun j => get64LE (P ++ Q) j) (fun j => ctx.nhkey.getD j 0) 16 =
      nh_16 (fun j => get64LE P j) (fun j => ctx.nhkey.getD j 0) 16 :=
    nh_16_ext _ _ _ 16 (fun j hj => get64LE_append_left P Q a j hP (by omega))
  have hfunT : ∀ F, (fun j => get64LE (P ++ Q) (16 * (a - 1 + F + 1) + j)) =
      fun j => get64LE Q (16 * F + j) := by
    intro F
    funext j
    rw [show 16 * (a - 1 + F + 1) + j = 16 * a + (16 * F + j) from by omega]
    exact get64LE_append_right P Q a (16 * F + j) hP
  cases hb : ctx.first_block_processed
  · -- context fresh: one-shot does first-block-add; update does it too
    rw [vhash_update_nfbp P (128 * a) ctx hb, hPdiv]
    rw [(hctx hb).1, (hctx hb).2]
    have hnbM := nh_16_bounds (fun j => get64LE (P ++ Q) j) (fun j => ctx.nhkey.getD j 0) 16
    cases hrq : qb % 128 with
    | zero =>
      rw [vhash_core_nfbp_rem0 (P ++ Q) (128 * a + qb) (a - 1 + qb / 128) ctx hb hdiv
        (by omega)]
      rw [vhash_core_fbp_rem0 Q qb _ rfl hrq]
      simp only []
      rw [hext16]
      rw [ADD128_comm _ _ ctx.polykey0 ctx.polykey1
        (nh_16_bounds (fun j => get64LE P j) (fun j => ctx.nhkey.getD j 0) 16).2 hpk1]
      rw [pstepBlocks_comp (fun j => get64LE (P ++ Q) j) (fun j => ctx.nhkey.getD j 0)
        ctx.polykey0 ctx.polykey1 (a - 1) (qb / 128)]
      rw [pstepBlocks_ext (fun j => get64LE (P ++ Q) j) (fun j => get64LE P j)
        (fun j => ctx.nhkey.getD j 0) ctx.polykey0 ctx.polykey1 (a - 1) 16 _
        (fun j hj1 hj2 => get64LE_append_left P Q a j hP (by omega))]
      rw [show (16 : Nat) + 16 * (a - 1) = 16 * a + 0 from by omega]
      rw [pstepBlocks_shift (fun j => get64LE (P ++ Q) j) (fun j => ctx.nhkey.getD j 0)
        ctx.polykey0 ctx.polykey1 (qb / 128) (16 * a)]
      rw [hfunR, Prod.mk.eta]
    | succ r =>
      rw [vhash_core_nfbp_rem (P ++ Q) (128 * a + qb) (a - 1 + qb / 128) r ctx hb hdiv
        (by omega)]
      rw [vhash_core_fbp_rem Q qb r _ rfl hrq]
      simp only []
      rw [hext16]
      rw [ADD128_comm _ _ ctx.polykey0 ctx.polykey1
        (nh_16_bounds (fun j => get64LE P j) (fun j => ctx.nhkey.getD j 0) 16).2 hpk1]
      rw [pstepBlocks_comp (fun j => get64LE (P ++ Q) j) (fun j => ctx.nhkey.getD j 0)
        ctx.polykey0 ctx.polykey1 (a - 1) (qb / 128)]
      rw [pstepBlocks_ext (fun j => get64LE (P ++ Q) j) (fun j => get64LE P j)
        (fun j => ctx.nhkey.getD j 0) ctx.polykey0 ctx.polykey1 (a - 1) 16 _
        (fun j hj1 hj2 => get64LE_append_left P Q a j hP (by omega))]
      rw [show (16 : Nat) + 16 * (a - 1) = 16 * a + 0 from by omega]
      rw [pstepBlocks_shift (fun j => get64LE (P ++ Q) j) (fun j => ctx.nhkey.getD j 0)
        ctx.polykey0 ctx.polykey1 (qb / 128) (16 * a)]
      rw [hfunR, hfunT (qb / 128), Prod.mk.eta]
  · -- context mid-stream: both sides are pure poly-step chains
    rw [vhash_update_fbp P (128 * a) ctx hb, hPdiv]
    have hdiv2 : (128 * a + qb) / 128 = a + qb / 128 := by omega
    cases hrq : qb % 128 with
    | zero =>
      rw [vhash_core_fbp_rem0 (P ++ Q) (128 * a + qb) ctx hb (by omega), hdiv2]
      rw [vhash_core_fbp_rem0 Q qb _ (by exact hb) hrq]
      simp only []
      rw [pstepBlocks_comp (fun j => get64LE (P ++ Q) j) (fun j => ctx.nhkey.getD j 0)
        ctx.polykey0 ctx.polykey1 a (qb / 128)]
      rw [pstepBlocks_ext (fun j => get64LE (P ++ Q) j) (fun j => get64LE P j)
        (fun j => ctx.nhkey.getD j 0) ctx.polykey0 ctx.polykey1 a 0 _
        (fun j hj1 hj2 => get64LE_append_left P Q a j hP (by omega))]
      rw [show (0 : Nat) + 16 * a = 16 * a + 0 from by omega]
      rw [pstepBlocks_shift (fun j => get64LE (P ++ Q) j) (fun j => ctx.nhkey.getD j 0)
        ctx.polykey0 ctx.polykey1 (qb / 128) (16 * a)]
      rw [hfunR, Prod.mk.eta]
    | succ r =>
      rw [vhash_core_fbp_rem (P ++ Q) (128 * a + qb) r ctx hb (by omega), hdiv2]
      rw [vhash_core_fbp_rem Q qb r _ (by exact hb) hrq]
      simp only []
      rw [pstepBlocks_comp (fun j => get64LE (P ++ Q) j) (fun j => ctx.nhkey.getD j 0)
        ctx.polykey0 ctx.polykey1 a (qb / 128)]
      rw [pstepBlocks_ext (fun j => get64LE (P ++ Q) j) (fun j => get64LE P j)
        (fun j => ctx.nhkey.getD j 0) ctx.polykey0 ctx.polykey1 a 0 _
        (fun j hj1 hj2 => get64LE_append_left P Q a j hP (by omega))]
      rw [show (0 : Nat) + 16 * a = 16 * a + 0 from by omega]
      rw [pstepBlocks_shift (fun j => get64LE (P ++ Q) j) (fun j => ctx.nhkey.getD j 0)
        ctx.polykey0 ctx.polykey1 (qb / 128) (16 * a)]
      rw [hfunR, Prod.mk.eta]
      rw [show 16 * (a + qb / 128) = 16 * (a - 1 + qb / 128 + 1) from by omega]
      rw [hfunT (qb / 128)]

theorem vhash_streaming (P Q : List Nat) (a qb : Nat) (ctx : uvmax_ctx_t)
    (ha : 1 ≤ a) (hP : P.length = 128 * a)
    (hctx : ctx.first_block_processed = false →
      ctx.polytmp0 = ctx.polykey0 ∧ ctx.polytmp1 = ctx.polykey1)
    (hpk1 : ctx.polykey1 < 2 ^ 64) :
    vhash (P ++ Q) (128 * a + qb) ctx = vhash Q qb (vhash_update P (128 * a) ctx) := by
  unfold vhash
  rw [vhash_core_streaming P Q a qb ctx ha hP hctx hpk1]
  rw [(vhash_update_keys P (128 * a) ctx).2.2.2.1, (vhash_update_keys P (128 * a) ctx).2.2.2.2]
  rw [show (128 * a + qb) % 128 = qb % 128 from by omega]
  rw [vhash_abort_update P (128 * a) ctx]

/-- C2: streaming equivalence - for every message M = P ++ Q where P is a
positive multiple of 128 bytes, the one-call tag uvmac(M) equals the tag of
first absorbing P with vhash_update and then calling uvmac on Q with the
same context, with the same pad-key word consumed from the same cursor. -/
theorem uvmac_streaming_equivalence (P Q : List Nat) (a qb : Nat) (ctx : uvmax_ctx_t)
    (ck : List Nat) (ckl cur : Nat)
    (ha : 1 ≤ a) (hP : P.length = 128 * a)
    (hctx : ctx.first_block_processed = false →
      ctx.polytmp0 = ctx.polykey0 ∧ ctx.polytmp1 = ctx.polykey1)
    (hpk1 : ctx.polykey1 < 2 ^ 64) :
    uvmac (P ++ Q) (128 * a + qb) ctx ck ckl cur =
      uvmac Q qb (vhash_update P (128 * a) ctx) ck ckl cur := by
  unfold uvmac
  cases hg : get64bitsOfKey ck ckl cur
  · rfl
  · simp only []
    rw [vhash_streaming P Q a qb ctx ha hP hctx hpk1]

/-- One all-zero full NH block. -/
def blockZeroMsg : List Nat := List.replicate 128 0

theorem uvmac_streaming_equivalence_witness :
    1 ≤ 1 ∧ blockZeroMsg.length = 128 * 1 ∧ ctxZero.polykey1 < 2 ^ 64 ∧
      uvmac (blockZeroMsg ++ []) (128 * 1 + 0) ctxZero zeroUserKey 20 0 =
        uvmac [] 0 (vhash_update blockZeroMsg (128 * 1) ctxZero) zeroUserKey 20 0 :=
  ⟨le_refl 1, by decide, by decide,
    uvmac_streaming_equivalence blockZeroMsg [] 1 0 ctxZero zeroUserKey 20 0 (le_refl 1)
      (by decide) (fun _ => ⟨rfl, rfl⟩) (by decide)⟩
